import Mathlib

/-!
Verification of an LSP-over-MCP bridge (TypeScript source) against its
natural-language specification.  The embedding models JavaScript strings
and byte buffers as `List Char` and `List Nat`, JavaScript `Map` as an
association list, and the stable `Array.prototype.sort` (stable since
ES2019) as a stable insertion sort.  Platform library routines that are
not part of the repository (`JSON.stringify` / `JSON.parse`,
`path.relative`, file-system reads) are treated as boundaries: framing is
proved over arbitrary message body bytes, and glob matching is proved over
already-relativized paths.
-/

namespace LspSpec

/-! ### Generic list helpers (JS string/buffer primitives) -/

/-- Model of `a.startsWith(p)` / `Buffer` head matching on lists. -/
def leadsWithL [DecidableEq α] : List α → List α → Bool
  | [], _ => true
  | _ :: _, [] => false
  | p :: ps, x :: xs => if p = x then leadsWithL ps xs else false

/-- Model of `s.endsWith(t)` on lists. -/
def endsWithL [DecidableEq α] (l suf : List α) : Bool :=
  l.drop (l.length - suf.length) == suf

/-- Model of `buffer.indexOf(pat)` (index of first occurrence of the
byte sequence `pat`, or none). -/
def indexOfSeq [DecidableEq α] (pat : List α) : List α → Option Nat
  | [] => if pat = [] then some 0 else none
  | x :: xs => if leadsWithL pat (x :: xs) then some 0 else (indexOfSeq pat xs).map (· + 1)

/-- Helper for the splitters: prepend an element to the first segment. -/
def consHead (x : α) : List (List α) → List (List α)
  | [] => [[x]]
  | h :: t => (x :: h) :: t

/-- Model of `s.split(c)` for a one-element separator. -/
def splitOn1 [DecidableEq α] (c : α) : List α → List (List α)
  | [] => [[]]
  | x :: xs => if x = c then [] :: splitOn1 c xs else consHead x (splitOn1 c xs)

/-- Model of `s.split(sep)` for a two-element separator such as CRLF. -/
def splitOn2 [DecidableEq α] (c₁ c₂ : α) : List α → List (List α)
  | [] => [[]]
  | [x] => [[x]]
  | x :: y :: xs =>
    if x = c₁ ∧ y = c₂ then [] :: splitOn2 c₁ c₂ xs
    else consHead x (splitOn2 c₁ c₂ (y :: xs))

/-- Model of `s.includes(sep)` for a two-element separator. -/
def containsSeq2 [DecidableEq α] (c₁ c₂ : α) : List α → Bool
  | [] => false
  | [_] => false
  | x :: y :: xs => if x = c₁ ∧ y = c₂ then true else containsSeq2 c₁ c₂ (y :: xs)

/-- Stable insertion used to model the stable `Array.prototype.sort`:
an element is placed before the first list member it compares
less-or-equal to, so ties keep their original relative order. -/
def insertOrdered (le : α → α → Bool) (x : α) : List α → List α
  | [] => [x]
  | y :: ys => if le x y then x :: y :: ys else y :: insertOrdered le x ys

/-- Model of the stable `Array.prototype.sort` with comparator-induced
boolean order `le` (`le a b` means the comparator returns ≤ 0 on (a,b)).
Any stable sort produces this output, so insertion sort is a faithful
model. -/
def jsSortStable (le : α → α → Bool) (l : List α) : List α :=
  l.foldr (insertOrdered le) []

/-! ### Framing transport (`writeMessage` / `MessageReader`, part_000)

Bodies are arbitrary byte lists: `JSON.stringify` output is opaque here,
and `Content-Length` counts bytes (`Buffer.byteLength`), which is exactly
`List.length` at this level. -/

/-- Bytes of the string `"Content-Length: "` (16 bytes). -/
def clBytes : List Nat :=
  [67, 111, 110, 116, 101, 110, 116, 45, 76, 101, 110, 103, 116, 104, 58, 32]

/-- The header/body separator bytes CR LF CR LF. -/
def crlfcrlf : List Nat := [13, 10, 13, 10]

/-- Little-endian base-10 digits, fuel-driven so that it reduces in the
kernel. `digitsLE f n` is correct whenever `n ≤ f`. -/
def digitsLE : Nat → Nat → List Nat
  | 0, _ => []
  | _, 0 => []
  | f + 1, n + 1 => ((n + 1) % 10) :: digitsLE f ((n + 1) / 10)

/-- ASCII decimal representation of a natural number (JS `${n}`). -/
def natToBytes (n : Nat) : List Nat :=
  if n = 0 then [48] else ((digitsLE n n).map (· + 48)).reverse

/-- Reference little-endian evaluation of a digit list. -/
def ofDigitsLE : List Nat → Nat
  | [] => 0
  | d :: ds => d + 10 * ofDigitsLE ds

/-- Model of `parseInt(s, 10)` restricted to the all-digit strings that
the writer produces (`NaN` states are represented by `none`). -/
def parseDec (l : List Nat) : Option Nat :=
  if l ≠ [] ∧ l.all (fun b => 48 ≤ b ∧ b ≤ 57) then
    some (l.foldl (fun a d => a * 10 + (d - 48)) 0)
  else none

/-- The header block scan of `tryParse`: split the pre-separator region
into CRLF lines and take the value of the last `Content-Length: ` line. -/
def parseHeaders (region : List Nat) : Option Nat :=
  (splitOn2 13 10 region).foldl
    (fun acc line => if leadsWithL clBytes line then parseDec (line.drop 16) else acc)
    none

/-- The header emitted by `writeMessage` for a body of `n` bytes. -/
def headerBytes (n : Nat) : List Nat := clBytes ++ natToBytes n ++ crlfcrlf

/-- The byte framing performed by `writeMessage`: header then body, the
`Content-Length` value being the byte length of the body. -/
def frameMessage (body : List Nat) : List Nat := headerBytes body.length ++ body

/-- Concatenation of the framed messages of a message sequence. -/
def flatFrames (bs : List (List Nat)) : List Nat := (bs.map frameMessage).flatten

/-- The persistent state of `MessageReader`: the byte buffer and the
pending `contentLength` (−1 encoded as `none`). -/
structure ReaderState where
  buffer : List Nat
  contentLength : Option Nat
deriving DecidableEq

/-- Outcome of one `tryParse` call: a complete message, a wait for more
data, or a hard parse failure (reject). -/
inductive ReadStep where
  | yield (body : List Nat) (s : ReaderState)
  | need (s : ReaderState)
  | fail
deriving DecidableEq

/-- Body phase of `tryParse`: wait until the buffer holds the announced
number of bytes, then cut the body off, keeping the rest. -/
def checkBody (n : Nat) (buf : List Nat) : ReadStep :=
  if buf.length < n then .need ⟨buf, some n⟩
  else .yield (buf.take n) ⟨buf.drop n, none⟩

/-- One `tryParse` call of `MessageReader`: if no content length is
pending, scan for the CRLFCRLF separator, read the `Content-Length`
header, drop the header bytes; then in either case try to cut the body. -/
def tryParse (s : ReaderState) : ReadStep :=
  match s.contentLength with
  | some n => checkBody n s.buffer
  | none =>
    match indexOfSeq crlfcrlf s.buffer with
    | none => .need s
    | some h =>
      match parseHeaders (s.buffer.take h) with
      | none => .fail
      | some n => checkBody n (s.buffer.drop (h + 4))

/-- Repeated `tryParse` until the reader needs more data: this is the
message sequence produced by successive `readMessage` calls between two
data events. Fuel only bounds the recursion; it is always supplied large
enough. -/
def drain : Nat → ReaderState → List (List Nat) × Option ReaderState
  | 0, _ => ([], none)
  | fuel + 1, s =>
    match tryParse s with
    | .yield b s' => let r := drain fuel s'; (b :: r.1, r.2)
    | .need s' => ([], some s')
    | .fail => ([], none)

/-- A data event: the chunk is appended to the reader buffer. -/
def feedChunk (s : ReaderState) (c : List Nat) : ReaderState :=
  ⟨s.buffer ++ c, s.contentLength⟩

/-- Feed the chunks one by one, draining all complete messages after
each; `none` marks a parse failure. -/
def processFrom : ReaderState → List (List Nat) → List (List Nat) × Option ReaderState
  | s, [] => ([], some s)
  | s, c :: cs =>
    let s1 := feedChunk s c
    match drain (s1.buffer.length + 2) s1 with
    | (ms, some s2) => let r := processFrom s2 cs; (ms ++ r.1, r.2)
    | (ms, none) => (ms, none)

/-- Messages produced by a fresh `MessageReader` on a chunked stream. -/
def processChunks (chunks : List (List Nat)) : List (List Nat) × Option ReaderState :=
  processFrom ⟨[], none⟩ chunks

/-- Alignment invariant: the bytes still owned by the reader plus the
bytes still to arrive form exactly the frames of the remaining message
bodies (with the current header already consumed in the `some` phase). -/
abbrev Align (s : ReaderState) (rest : List (List Nat)) (inc : List Nat) : Prop :=
  (s.contentLength = none ∧ s.buffer ++ inc = flatFrames rest) ∨
  (∃ b rest2, rest = b :: rest2 ∧ s.contentLength = some b.length ∧
    s.buffer ++ inc = b ++ flatFrames rest2)

/-- Post-drain stability: `tryParse` would report `need` again. -/
abbrev Stable (s : ReaderState) : Prop :=
  (s.contentLength = none ∧ indexOfSeq crlfcrlf s.buffer = none) ∨
  (∃ n, s.contentLength = some n ∧ s.buffer.length < n)

/-! ### LSP data model (protocol/types) -/

/-- Characters used by the embedded code, by code point to keep the
source free of delicate character literals. -/
def nlC : Char := Char.ofNat 10

def crC : Char := Char.ofNat 13

def tabC : Char := Char.ofNat 9

def spaceC : Char := Char.ofNat 32

def quoteD : Char := Char.ofNat 34

def quoteS : Char := Char.ofNat 39

def backslashC : Char := Char.ofNat 92

def openBraceC : Char := Char.ofNat 123

def closeBraceC : Char := Char.ofNat 125

def dotC : Char := Char.ofNat 46

def colonC : Char := Char.ofNat 58

def barC : Char := Char.ofNat 124

structure Position where
  line : Nat
  character : Nat
deriving DecidableEq

/-- LSP range; the source field `end` is a Lean keyword and is embedded
as `stop`. -/
structure Range where
  start : Position
  stop : Position
deriving DecidableEq

structure Location where
  uri : String
  range : Range
deriving DecidableEq

structure TextEdit where
  range : Range
  newText : List Char
deriving DecidableEq

/-! ### tools/utilities.ts -/

/-- `Set.add` of the JS `Set<number>`: append if absent (iteration in
insertion order). -/
def insertLine (s : List Nat) (x : Nat) : List Nat :=
  if x ∈ s then s else s ++ [x]

/-- Add the inclusive run of `cnt` lines starting at `lo` to the set. -/
def addLines (s : List Nat) (lo cnt : Nat) : List Nat :=
  (List.range' lo cnt).foldl insertLine s

/-- `getLineRangesToDisplay`: for each reference span `[sl, el]` add the
context lines before, the span itself, and the context lines after
(bounded by `totalLines` exclusively, as in the source loop
`i < min(totalLines, el + contextLines + 1)`).  Natural subtraction
realizes `max(0, sl - contextLines)`. -/
def getLineRangesToDisplay (locations : List Location) (totalLines contextLines : Nat) :
    List Nat :=
  locations.foldl
    (fun s loc =>
      let startLine := loc.range.start.line
      let endLine := loc.range.stop.line
      let s1 := addLines s (startLine - contextLines) (startLine + 1 - (startLine - contextLines))
      let s2 := addLines s1 startLine (endLine + 1 - startLine)
      addLines s2 endLine (min totalLines (endLine + contextLines + 1) - endLine))
    []

/-- Line range of `convertLinesToRanges`; source field `end` embedded as
`stop`. -/
structure LineRange where
  start : Nat
  stop : Nat
deriving DecidableEq

/-- The accumulation loop of `convertLinesToRanges` after the first
element has initialized `(rangeStart, rangeEnd)`. -/
def convertGo : List Nat → Nat → Nat → List LineRange
  | [], rs, re => [⟨rs, re⟩]
  | x :: xs, rs, re =>
    if x = re + 1 then convertGo xs rs x
    else ⟨rs, re⟩ :: convertGo xs x x

/-- `convertLinesToRanges`: sort the line set ascending (JS comparator
`(a, b) => a - b`) and collapse consecutive runs.  The `-1` sentinel of
the source corresponds to the empty-so-far state handled by the match. -/
def convertLinesToRanges (lines : List Nat) : List LineRange :=
  match jsSortStable Nat.ble lines with
  | [] => []
  | x :: xs => convertGo xs x x

/-- Decimal digits of a line number as characters. -/
def natToChars (n : Nat) : List Char := (natToBytes n).map Char.ofNat

/-- `padStart(6, ' ')`. -/
def padLineNum (n : Nat) : List Char :=
  List.replicate (6 - (natToChars n).length) spaceC ++ natToChars n

/-- One rendered gutter line `<padded 1-indexed number>| <text>`. -/
def renderLine (lines : List (List Char)) (ln : Nat) : List Char :=
  padLineNum (ln + 1) ++ [barC, spaceC] ++ lines.getD ln []

/-- Lines of one range; the source loop also stops at `lines.length`,
which on the ascending run is the same as this filter. -/
def renderRange (lines : List (List Char)) (r : LineRange) : List (List Char) :=
  (List.range' r.start (r.stop + 1 - r.start)).filterMap
    (fun ln => if ln < lines.length then some (renderLine lines ln) else none)

def dotsLine : List Char := [dotC, dotC, dotC]

/-- Tail of `formatLinesWithRanges`: every later range is preceded by the
`...` separator. -/
def formatGo (lines : List (List Char)) : List LineRange → List (List Char)
  | [] => []
  | r :: rest => (dotsLine :: renderRange lines r) ++ formatGo lines rest

/-- `formatLinesWithRanges`, producing the list of output lines (the
source joins them with a newline at the very end). -/
def formatLinesWithRanges (lines : List (List Char)) (ranges : List LineRange) :
    List (List Char) :=
  match ranges with
  | [] => []
  | r :: rest => renderRange lines r ++ formatGo lines rest

/-- JS whitespace relevant after splitting on newlines. -/
def isWsChar (c : Char) : Bool := c = spaceC ∨ c = tabC ∨ c = crC

/-- Model of `String.prototype.trim`. -/
def jsTrim (l : List Char) : List Char :=
  ((l.dropWhile isWsChar).reverse.dropWhile isWsChar).reverse

/-- The comment / decorator markers of `getFullDefinition`:
`//`, `/*`, `*`, `#`, `@`. -/
def commentMarkers : List (List Char) :=
  [[Char.ofNat 47, Char.ofNat 47], [Char.ofNat 47, Char.ofNat 42],
   [Char.ofNat 42], [Char.ofNat 35], [Char.ofNat 64]]

def startsWithMarker (l : List Char) : Bool :=
  commentMarkers.any (fun m => leadsWithL m l)

/-- Upward expansion over preceding comment / annotation lines. -/
def expandUp (lines : List (List Char)) : Nat → Nat
  | 0 => 0
  | k + 1 =>
    let prev := jsTrim (lines.getD k [])
    if startsWithMarker prev then expandUp lines k else k + 1

/-- Brace-and-string scanner state of `getFullDefinition`. -/
structure ScanState where
  braceCount : Int
  inString : Bool
  stringChar : Char
deriving DecidableEq

/-- Character loop of the downward scan: quote toggling first (with the
`j == 0 || line[j-1] != '\\'` escape guard), then brace counting outside
strings. -/
def scanChars : List Char → Option Char → ScanState → ScanState
  | [], _, st => st
  | c :: rest, prev, st =>
    let st1 :=
      if (c = quoteD ∨ c = quoteS) ∧ (prev = none ∨ prev ≠ some backslashC) then
        if st.inString = false then ⟨st.braceCount, true, c⟩
        else if c = st.stringChar then ⟨st.braceCount, false, st.stringChar⟩
        else st
      else st
    let st2 :=
      if st1.inString = false then
        if c = openBraceC then ⟨st1.braceCount + 1, st1.inString, st1.stringChar⟩
        else if c = closeBraceC then ⟨st1.braceCount - 1, st1.inString, st1.stringChar⟩
        else st1
      else st1
    scanChars rest (some c) st2

/-- Downward line loop of `getFullDefinition`: it runs while
`i <= endLine && i < lines.length` with `endLine` the originally
reported end, and stops early when the brace balance returns to zero on
a line strictly after the original start.  The fuel argument only
bounds the recursion structurally; `e0 + 1` fuel always covers the loop
because the loop condition fails once `i` exceeds `e0`. -/
def expandDownGo (lines : List (List Char)) (origStart e0 : Nat) :
    Nat → Nat → ScanState → Nat
  | 0, _, _ => e0
  | fuel + 1, i, st =>
    if i ≤ e0 ∧ i < lines.length then
      let st2 := scanChars (lines.getD i []) none st
      if st2.braceCount = 0 ∧ origStart < i then i
      else expandDownGo lines origStart e0 fuel (i + 1) st2
    else e0

def expandDown (lines : List (List Char)) (origStart e0 : Nat) (i : Nat)
    (st : ScanState) : Nat :=
  expandDownGo lines origStart e0 (e0 + 1) i st

/-- `getFullDefinition` (pure part, after the file has been read and
split into lines): returns the extracted definition lines and the
updated range. -/
def getFullDefinition (lines : List (List Char)) (location : Range) :
    List (List Char) × Range :=
  let startLine := expandUp lines location.start.line
  let endLine :=
    expandDown lines location.start.line location.stop.line startLine ⟨0, false, Char.ofNat 0⟩
  let definitionLines := (lines.drop startLine).take (endLine + 1 - startLine)
  (definitionLines, ⟨⟨startLine, 0⟩, ⟨endLine, (lines.getD endLine []).length⟩⟩)

/-! ### tools/edit.ts and tools/rename.ts -/

/-- Line split used by `getRange`: CRLF if the content contains a CRLF
pair anywhere, else LF. -/
def editLines (content : List Char) : List (List Char) :=
  if containsSeq2 crC nlC content then splitOn2 crC nlC content
  else splitOn1 nlC content

/-- Number of lines of the file as `getRange` counts them. -/
def numLines (content : List Char) : Nat := (editLines content).length

/-- EOF positioning of `getRange`: the last line, stepping back over one
trailing empty line (the JS clamp of −1 back to 0 is natural
subtraction here). -/
def lastContentLineIdx (content : List Char) : Nat :=
  if (editLines content).getD ((editLines content).length - 1) [] = [] then
    (editLines content).length - 1 - 1
  else (editLines content).length - 1

/-- The zero-width end-of-file position used for past-EOF edits. -/
def eofPos (content : List Char) : Position :=
  ⟨lastContentLineIdx content,
   ((editLines content).getD (lastContentLineIdx content) []).length⟩

/-- `getRange` of the edit tool (pure part).  `endLine ≥ 1` is assumed:
natural subtraction models the 0-based conversion of the validated
1-based inputs.  `startIdx ≥ lines.length` is written
`lines.length ≤ startLine - 1`. -/
def getRange (content : List Char) (startLine endLine : Nat) : Except String Range :=
  if startLine < 1 then Except.error ("Start line must be at least 1")
  else if (editLines content).length ≤ startLine - 1 then
    Except.ok ⟨eofPos content, eofPos content⟩
  else
    let endIdx := endLine - 1
    let endIdx2 := if (editLines content).length ≤ endIdx then
      (editLines content).length - 1 else endIdx
    Except.ok ⟨⟨startLine - 1, 0⟩, ⟨endIdx2, ((editLines content).getD endIdx2 []).length⟩⟩

/-- Join lines with newlines (`lines.join('\n')`). -/
def joinNL : List (List Char) → List Char
  | [] => []
  | [l] => l
  | l :: ls => l ++ nlC :: joinNL ls

/-- The content without its trailing newline, when there is one. -/
def stripTrailNL (content : List Char) : List Char :=
  if content.getLast? = some nlC then content.dropLast else content

/-- The trailing newline of the content, when there is one. -/
def trailNL (content : List Char) : List Char :=
  if content.getLast? = some nlC then [nlC] else []

/-- The descending sort comparator of `applyWorkspaceEdit`: descending
start line, then descending start character. -/
def cmpEdits (a b : TextEdit) : Int :=
  if b.range.start.line ≠ a.range.start.line then
    (b.range.start.line : Int) - (a.range.start.line : Int)
  else (b.range.start.character : Int) - (a.range.start.character : Int)

def edLE (a b : TextEdit) : Bool := cmpEdits a b ≤ 0

/-- One edit application on the line array (single-line substring splice
or multi-line `splice`); assumes `start.line ≤ stop.line`. -/
def applyOneEdit (lines : List (List Char)) (e : TextEdit) : List (List Char) :=
  let sl := e.range.start.line
  let sc := e.range.start.character
  let el := e.range.stop.line
  let ec := e.range.stop.character
  if sl = el then
    let line := lines.getD sl []
    lines.set sl (line.take sc ++ e.newText ++ line.drop ec)
  else
    let startText := (lines.getD sl []).take sc
    let endText := (lines.getD el []).drop ec
    lines.take sl ++ [startText ++ e.newText ++ endText] ++ lines.drop (el + 1)

/-- `applyWorkspaceEdit` for one file (identical in rename.ts and
edit.ts): split on LF, sort the edits descending by start position with
the stable array sort, apply bottom to top, join. -/
def applyWorkspaceEdit (content : List Char) (edits : List TextEdit) : List Char :=
  joinNL ((jsSortStable edLE edits).foldl applyOneEdit (splitOn1 nlC content))

/-- Pairwise order on positions (lexicographic line, character). -/
def posLe (p q : Position) : Prop :=
  p.line < q.line ∨ (p.line = q.line ∧ p.character ≤ q.character)

instance : DecidablePred (fun pq : Position × Position => posLe pq.1 pq.2) :=
  fun _ => by unfold posLe; infer_instance

instance (p q : Position) : Decidable (posLe p q) := by unfold posLe; infer_instance

/-- Two edits do not overlap: one ends before the other starts. -/
def NonOverlap (a b : TextEdit) : Prop :=
  posLe a.range.stop b.range.start ∨ posLe b.range.stop a.range.start

instance (a b : TextEdit) : Decidable (NonOverlap a b) := by unfold NonOverlap; infer_instance

/-- SymbolKind.Method of the LSP enumeration. -/
def SymbolKindMethod : Nat := 6

/-- The symbol match policy of the definition tool (`readDefinition`):
dotted queries require exact equality; otherwise methods also match on a
`::name` or `.name` suffix. -/
def acceptsSymbol (symbolName symName : List Char) (kind : Nat) : Bool :=
  if symbolName.contains dotC then symName == symbolName
  else if kind = SymbolKindMethod then
    endsWithL symName ([colonC, colonC] ++ symbolName) ||
    endsWithL symName (dotC :: symbolName) ||
    symName == symbolName
  else symName == symbolName

/-! ### Symbol abstraction (protocol/types, part_005) -/

/-- A raw location object: the `range` property may be missing on the
URI-only `WorkspaceSymbol` shape. -/
structure RawLocation where
  uri : String
  range : Option Range
deriving DecidableEq

/-- A raw `workspace/symbol` result. -/
structure RawSymbol where
  name : String
  kind : Nat
  containerName : Option String
  location : Option RawLocation
deriving DecidableEq

/-- A location as returned by the wrapper `getLocation` methods; JS
objects may lack a `range`, modelled by `Option`. -/
structure LooseLocation where
  uri : String
  range : Option Range
deriving DecidableEq

inductive SymbolWrapper where
  | symbolInformation (s : RawSymbol)
  | workspaceSymbol (s : RawSymbol)
deriving DecidableEq

/-- `wrapSymbol`: the source discriminates on
`'location' in symbol && 'uri' in symbol.location`; every present
location object carries a `uri`, so the test reduces to the presence of
`location`. -/
def wrapSymbol (s : RawSymbol) : SymbolWrapper :=
  match s.location with
  | some _ => .symbolInformation s
  | none => .workspaceSymbol s

def zeroRange : Range := ⟨⟨0, 0⟩, ⟨0, 0⟩⟩

/-- `getLocation` of the two wrappers.  `SymbolInformationWrapper`
returns the raw location unchanged; `WorkspaceSymbolWrapper` checks
`'range' in location` and synthesizes a zero-length range at line 0 when
it is absent.  The `none` fall-backs stand for the JS `undefined` of an
absent property. -/
def getLocation : SymbolWrapper → LooseLocation
  | .symbolInformation s =>
    match s.location with
    | some l => ⟨l.uri, l.range⟩
    | none => ⟨"", none⟩
  | .workspaceSymbol s =>
    match s.location with
    | some l =>
      if l.range.isSome then ⟨l.uri, l.range⟩
      else ⟨l.uri, some zeroRange⟩
    | none => ⟨"", none⟩

/-! ### LSP client open-file registry (lsp/client.ts) -/

/-- The full-text `textDocument/didChange` payload sent by
`notifyChange`. -/
structure DidChangeParams where
  uri : String
  version : Nat
  text : List Char
deriving DecidableEq

/-- Registry lookup (`this.openFiles.get(uri)`). -/
def lookupVersion (files : List (String × Nat)) (uri : String) : Option Nat :=
  (files.find? (fun e => e.1 == uri)).map (·.2)

/-- In-place `fileInfo.version++` on the registry. -/
def setVersion (files : List (String × Nat)) (uri : String) (v : Nat) :
    List (String × Nat) :=
  files.map (fun e => if e.1 == uri then (e.1, v) else e)

def notifyChangeErr : String := "Cannot notify change for unopened file: "

/-- `notifyChange` (pure part; `content` is the freshly read file text):
error if the URI is not open, otherwise increment the stored version and
emit the full-text change notification with the new version. -/
def notifyChange (files : List (String × Nat)) (uri : String) (content : List Char) :
    Except String (List (String × Nat) × DidChangeParams) :=
  match lookupVersion files uri with
  | none => Except.error (notifyChangeErr ++ uri)
  | some v => Except.ok (setVersion files uri (v + 1), ⟨uri, v + 1, content⟩)

/-! ### Workspace watcher (part_007) -/

/-- A glob pattern: plain string or `RelativePattern`-style object with
a `pattern` property (anything else never matches). -/
inductive GlobPattern where
  | str (pattern : List Char)
  | relativePat (baseUri pattern : List Char)
  | other
deriving DecidableEq

/-- A dynamic watcher registration (`{globPattern, kind}`; absent kind
means all three event kinds). -/
structure WatcherPattern where
  globPattern : GlobPattern
  kind : Option Nat
deriving DecidableEq

/-- Bitset of Create(1) | Change(2) | Delete(4). -/
def allWatchKinds : Nat := 7

/-- `matchGlob` over the already workspace-relativized, slash-normalized
path (the relativization itself is the `path` platform library). -/
def matchGlob (normalizedPath pattern : List Char) : Bool :=
  if pattern == ("**/*").toList then true
  else if leadsWithL ("**/").toList pattern then
    -- a pattern starting with `**/` can never start with `*.`, so the
    -- JS fall-through to the next test is an else-branch here
    let rest := pattern.drop 3
    if leadsWithL ("*.").toList rest then endsWithL normalizedPath (rest.drop 1)
    else false
  else if leadsWithL ("*.").toList pattern then endsWithL normalizedPath (pattern.drop 1)
  else false

def matchesPattern (normalizedPath : List Char) : GlobPattern → Bool
  | .str p => matchGlob normalizedPath p
  | .relativePat _ p => matchGlob normalizedPath p
  | .other => false

/-- `isPathWatched`: with no registrations everything is watched with
the full kind mask; otherwise the first matching registration decides,
defaulting to all kinds. -/
def isPathWatched (registrations : List WatcherPattern) (normalizedPath : List Char) :
    Bool × Nat :=
  if registrations.isEmpty then (true, allWatchKinds)
  else
    match registrations.find? (fun reg => matchesPattern normalizedPath reg.globPattern) with
    | some reg => (true, reg.kind.getD allWatchKinds)
    | none => (false, 0)

inductive FileChangeType where
  | created
  | changed
  | deleted
deriving DecidableEq

/-- The kind-mask filter of `handleFileEvent`: an event passes when its
change type is enabled in the watched kind bitset. -/
def eventKindPasses (kind : Nat) : FileChangeType → Bool
  | .created => Nat.land kind 1 != 0
  | .changed => Nat.land kind 2 != 0
  | .deleted => Nat.land kind 4 != 0

/-! ### Spec-side comparison definition (claim C7) -/

/-- The displayed-line-set formula exactly as the claim words it: the
union over references of the inclusive interval
`[max(0, sl-C) .. min(total, el+C)]`. -/
def claimedDisplaySet (locations : List Location) (totalLines contextLines : Nat)
    (i : Nat) : Prop :=
  ∃ loc ∈ locations,
    loc.range.start.line - contextLines ≤ i ∧
    i ≤ min totalLines (loc.range.stop.line + contextLines)

/-! ### Concrete instances used by counterexamples and witnesses -/

/-- The four-line file of the definition-tool example. -/
def exC2Lines : List (List Char) :=
  [("// doc").toList, ("function f() \x7b").toList,
   ("  return 1;").toList, ("\x7d").toList]

def exC2Range : Range := ⟨⟨1, 0⟩, ⟨1, 12⟩⟩

def c3content : List Char := ("ab").toList

/-- Zero-width insertion at (0,1) of the text `X`. -/
def c3editX : TextEdit := ⟨⟨⟨0, 1⟩, ⟨0, 1⟩⟩, [Char.ofNat 88]⟩

/-- Zero-width insertion at (0,1) of the text `Y`. -/
def c3editY : TextEdit := ⟨⟨⟨0, 1⟩, ⟨0, 1⟩⟩, [Char.ofNat 89]⟩

def c3wContent : List Char := ("ab\ncd").toList

def c3wEdit1 : TextEdit := ⟨⟨⟨0, 0⟩, ⟨0, 1⟩⟩, [Char.ofNat 80]⟩

def c3wEdit2 : TextEdit := ⟨⟨⟨1, 0⟩, ⟨1, 1⟩⟩, [Char.ofNat 81]⟩

/-- A file mixing LF and CRLF line terminators, not ending in a newline. -/
def c6mixed : List Char := ("a\nb\r\nc").toList

def c6newText : List Char := [Char.ofNat 88]

def c6result : List Char := ("a\nbX\r\nc").toList

def c6wContent : List Char := ("a\nb").toList

def c7loc : Location := ⟨"file:///f.ts", ⟨⟨4, 0⟩, ⟨4, 0⟩⟩⟩

/-- References at line indices 3, 4 and 12 of a 20-line file. -/
def exLocs : List Location :=
  [⟨"file:///f.ts", ⟨⟨3, 0⟩, ⟨3, 0⟩⟩⟩,
   ⟨"file:///f.ts", ⟨⟨4, 0⟩, ⟨4, 0⟩⟩⟩,
   ⟨"file:///f.ts", ⟨⟨12, 0⟩, ⟨12, 0⟩⟩⟩]

def ex20Lines : List (List Char) := List.replicate 20 []

/-- A URI-only `WorkspaceSymbol`: its location has no `range`. -/
def uriOnlySymbol : RawSymbol := ⟨"f", 6, none, some ⟨"file:///a.ts", none⟩⟩

def c9files : List (String × Nat) := [("file:///a.ts", 3)]

def c10reg : WatcherPattern := ⟨.str ("**/*.ts").toList, some 3⟩

def c10path : List Char := ("src/a.ts").toList

def bodiesEx : List (List Nat) := [[123, 125], [49]]

def chunksEx : List (List Nat) :=
  [(flatFrames bodiesEx).take 7, (flatFrames bodiesEx).drop 7]

/-! ## Helper lemmas -/

theorem endsWithL_iff [DecidableEq α] (l suf : List α) :
    endsWithL l suf = true ↔ ∃ p, l = p ++ suf := by
  unfold endsWithL
  rw [beq_iff_eq]
  constructor
  · intro h
    refine ⟨l.take (l.length - suf.length), ?_⟩
    conv_lhs => rw [← List.take_append_drop (l.length - suf.length) l]
    rw [h]
  · rintro ⟨p, rfl⟩
    rw [List.length_append, Nat.add_sub_cancel, List.drop_left]

theorem leadsWithL_append [DecidableEq α] (p t : List α) :
    leadsWithL p (p ++ t) = true := by
  induction p with
  | nil => rfl
  | cons x xs ih => simpa [leadsWithL] using ih

theorem leadsWithL_take [DecidableEq α] {p l : List α} :
    leadsWithL p l = true → l.take p.length = p := by
  induction p generalizing l with
  | nil => intro _; rfl
  | cons x xs ih =>
    cases l with
    | nil => intro h; simp [leadsWithL] at h
    | cons y ys =>
      simp only [leadsWithL]
      split
      · intro h
        simp_all [ih h]
      · intro h; simp at h

/-! ## Claim C2 -/

/-- C2: `code_bug` evidence.  The spec states that on the four-line file
`// doc` / `function f() {` / `  return 1;` / `}` with reported range
(1,0)-(1,12) the definition tool returns lines 0 through 3.  The source
loop `for (i = startLine; i <= endLine && i < lines.length; i++)` is
bounded by the *original* end line, so the downward expansion can never
pass it: the code returns the block of lines 0 through 1 with end
character 14, contradicting its own comment
`Expand downward to include full function/class body`. -/
theorem c2_expansion_stops_at_reported_end :
    getFullDefinition exC2Lines exC2Range =
      (exC2Lines.take 2, ⟨⟨0, 0⟩, ⟨1, 14⟩⟩) ∧
    (getFullDefinition exC2Lines exC2Range).2.stop.line ≠ 3 := by
  constructor
  · decide
  · decide

/-! ## Claim C4 -/

/-- C4: `code_bug` evidence.  For a URI-only `WorkspaceSymbol`, the
discriminator of `wrapSymbol` (`'location' in symbol && 'uri' in
symbol.location`) is true — a URI-only location still has a `uri`
property — so the symbol is wrapped as `SymbolInformation` and
`getLocation` returns the raw location with *no* range at all, while the
(unreachable) `WorkspaceSymbolWrapper` branch would synthesize the
zero-length range at line 0 that the claim describes. -/
theorem c4_wrapSymbol_misroutes_uri_only :
    wrapSymbol uriOnlySymbol = SymbolWrapper.symbolInformation uriOnlySymbol ∧
    (getLocation (wrapSymbol uriOnlySymbol)).range = none ∧
    getLocation (wrapSymbol uriOnlySymbol) = ⟨"file:///a.ts", none⟩ ∧
    getLocation (SymbolWrapper.workspaceSymbol uriOnlySymbol) =
      ⟨"file:///a.ts", some zeroRange⟩ :=
  ⟨rfl, rfl, rfl, rfl⟩

/-! ## Claim C5 -/

/-- C5: the definition-tool match policy.  A dotted query accepts only
an exactly equal name; otherwise a Method symbol is accepted iff its
name equals the query or ends in `::query` or `.query`, and any other
kind only on exact equality; together with the concrete example of the
spec (query `Foo` accepts the Method names `Foo`, `Bar::Foo`,
`other.Foo`; query `Bar.Foo` accepts only `Bar.Foo`). -/
theorem c5_match_policy :
    (∀ (symbolName symName : List Char) (kind : Nat),
      acceptsSymbol symbolName symName kind = true ↔
        (if dotC ∈ symbolName then symName = symbolName
         else if kind = SymbolKindMethod then
           symName = symbolName ∨
           (∃ p, symName = p ++ [colonC, colonC] ++ symbolName) ∨
           (∃ p, symName = p ++ dotC :: symbolName)
         else symName = symbolName)) ∧
    acceptsSymbol ("Foo").toList ("Foo").toList SymbolKindMethod = true ∧
    acceptsSymbol ("Foo").toList ("Bar::Foo").toList SymbolKindMethod = true ∧
    acceptsSymbol ("Foo").toList ("other.Foo").toList SymbolKindMethod = true ∧
    acceptsSymbol ("Bar.Foo").toList ("Bar.Foo").toList SymbolKindMethod = true ∧
    acceptsSymbol ("Bar.Foo").toList ("Foo").toList SymbolKindMethod = false ∧
    acceptsSymbol ("Foo").toList ("xFoo").toList SymbolKindMethod = false := by
  refine ⟨?_, by decide, by decide, by decide, by decide, by decide, by decide⟩
  intro symbolName symName kind
  by_cases hdot : dotC ∈ symbolName
  · have hc : symbolName.contains dotC = true := by
      simp [List.contains, List.elem_iff, hdot]
    simp [acceptsSymbol, hc, hdot]
  · have hc : symbolName.contains dotC = false := by
      simp [List.contains, List.elem_iff, hdot]
    by_cases hk : kind = SymbolKindMethod
    · simp only [acceptsSymbol, hc, hdot, hk, Bool.false_eq_true, if_false, if_pos,
        eq_self_iff_true, if_true, Bool.or_eq_true, beq_iff_eq, endsWithL_iff,
        List.append_assoc]
      tauto
    · simp [acceptsSymbol, hc, hdot, hk]

/-! ## Claim C9 -/

theorem lookupVersion_setVersion (files : List (String × Nat)) (uri : String)
    (w : Nat) {v : Nat} (h : lookupVersion files uri = some v) :
    lookupVersion (setVersion files uri w) uri = some w := by
  induction files with
  | nil => simp [lookupVersion] at h
  | cons e rest ih =>
    have he : (e.1 == uri) = true ∨ (e.1 == uri) = false := by
      cases e.1 == uri <;> simp
    rcases he with he | he
    · simp [lookupVersion, setVersion, List.find?, he]
    · simp only [lookupVersion, setVersion, List.map_cons, List.find?] at h ⊢
      simp only [he, Bool.false_eq_true, if_false] at h ⊢
      exact ih h

/-- C9: `notifyChange` fails (sending nothing) exactly when the URI is
not in the open-file registry; on an open URI it increments the stored
version by exactly one and the emitted full-text `didChange` carries
that new version, so per-URI reported versions strictly increase. -/
theorem c9_notifyChange_version :
    ∀ (files : List (String × Nat)) (uri : String) (content : List Char),
      (lookupVersion files uri = none →
        notifyChange files uri content = Except.error (notifyChangeErr ++ uri)) ∧
      (∀ v, lookupVersion files uri = some v →
        notifyChange files uri content =
          Except.ok (setVersion files uri (v + 1), ⟨uri, v + 1, content⟩) ∧
        lookupVersion (setVersion files uri (v + 1)) uri = some (v + 1) ∧
        v < v + 1) := by
  intro files uri content
  constructor
  · intro h
    unfold notifyChange
    rw [h]
  · intro v h
    refine ⟨?_, lookupVersion_setVersion files uri (v + 1) h, Nat.lt_succ_self v⟩
    unfold notifyChange
    rw [h]

/-- C9 witness: on the registry `[(file:///a.ts, 3)]`, a change for the
open URI is sent with version 4 and stored back, and a change for an
unopened URI errors. -/
theorem c9_notifyChange_version_witness :
    notifyChange c9files ("file:///a.ts") [] =
      Except.ok (setVersion c9files ("file:///a.ts") 4, ⟨"file:///a.ts", 4, []⟩) ∧
    lookupVersion (setVersion c9files ("file:///a.ts") 4) ("file:///a.ts") = some 4 ∧
    notifyChange c9files ("file:///b.ts") [] =
      Except.error (notifyChangeErr ++ "file:///b.ts") := by
  refine ⟨?_, ?_, ?_⟩
  · exact ((c9_notifyChange_version c9files ("file:///a.ts") []).2 3 rfl).1
  · exact ((c9_notifyChange_version c9files ("file:///a.ts") []).2 3 rfl).2.1
  · exact (c9_notifyChange_version c9files ("file:///b.ts") []).1 rfl

/-! ## Claim C10 -/

/-- C10: with no dynamic registrations, `isPathWatched` reports every
path as watched with the full Create|Change|Delete mask and every event
kind passes the `handleFileEvent` mask filter; once registrations exist,
a path is watched iff some registration pattern matches, and the first
matching registration supplies the kind, defaulting to all kinds. -/
theorem c10_isPathWatched :
    (∀ p, isPathWatched [] p = (true, allWatchKinds)) ∧
    (∀ t, eventKindPasses allWatchKinds t = true) ∧
    (∀ (regs : List WatcherPattern) (p : List Char), regs ≠ [] →
      ((isPathWatched regs p).1 = true ↔
        ∃ reg ∈ regs, matchesPattern p reg.globPattern = true)) ∧
    (∀ (regs : List WatcherPattern) (p : List Char) (reg : WatcherPattern),
      regs.find? (fun r => matchesPattern p r.globPattern) = some reg →
      isPathWatched regs p = (true, reg.kind.getD allWatchKinds)) := by
  refine ⟨fun p => rfl, fun t => by cases t <;> rfl, ?_, ?_⟩
  · intro regs p hne
    unfold isPathWatched
    rw [if_neg (by simpa using hne)]
    cases hf : regs.find? (fun r => matchesPattern p r.globPattern) with
    | none =>
      constructor
      · intro h
        exact absurd h (by decide)
      · rintro ⟨reg, hmem, hmatch⟩
        have hno := List.find?_eq_none.mp hf reg hmem
        exact absurd hmatch (by simpa using hno)
    | some reg =>
      constructor
      · intro _
        refine ⟨reg, List.mem_of_find?_eq_some hf, ?_⟩
        have h2 := List.find?_some hf
        exact h2
      · intro _
        rfl
  · intro regs p reg hf
    unfold isPathWatched
    have hne : regs ≠ [] := by
      rintro rfl
      simp [List.find?] at hf
    rw [if_neg (by simpa using hne), hf]

/-! ## Claim C3 -/

theorem insertOrdered_perm (le : α → α → Bool) (x : α) (l : List α) :
    (insertOrdered le x l).Perm (x :: l) := by
  induction l with
  | nil => exact List.Perm.refl _
  | cons y ys ih =>
    unfold insertOrdered
    split
    · exact List.Perm.refl _
    · exact (ih.cons y).trans (List.Perm.swap x y ys)

theorem jsSortStable_perm (le : α → α → Bool) (l : List α) :
    (jsSortStable le l).Perm l := by
  induction l with
  | nil => exact List.Perm.refl _
  | cons x xs ih => exact (insertOrdered_perm le x (jsSortStable le xs)).trans (ih.cons x)

theorem insertOrdered_pairwise (le : α → α → Bool)
    (htrans : ∀ a b c, le a b = true → le b c = true → le a c = true)
    (htot : ∀ a b, le a b = true ∨ le b a = true) (x : α) (l : List α)
    (hl : l.Pairwise fun a b => le a b = true) :
    (insertOrdered le x l).Pairwise fun a b => le a b = true := by
  induction l with
  | nil => simp [insertOrdered]
  | cons y ys ih =>
    rw [List.pairwise_cons] at hl
    unfold insertOrdered
    by_cases h : le x y = true
    · rw [if_pos h, List.pairwise_cons]
      refine ⟨?_, List.pairwise_cons.mpr hl⟩
      intro z hz
      rcases List.mem_cons.mp hz with rfl | hz'
      · exact h
      · exact htrans x y z h (hl.1 z hz')
    · rw [if_neg h, List.pairwise_cons]
      have hyx : le y x = true := (htot x y).resolve_left h
      refine ⟨?_, ih hl.2⟩
      intro z hz
      rcases List.mem_cons.mp ((insertOrdered_perm le x ys).mem_iff.mp hz) with rfl | hz'
      · exact hyx
      · exact hl.1 z hz'

theorem jsSortStable_pairwise (le : α → α → Bool)
    (htrans : ∀ a b c, le a b = true → le b c = true → le a c = true)
    (htot : ∀ a b, le a b = true ∨ le b a = true) (l : List α) :
    (jsSortStable le l).Pairwise fun a b => le a b = true := by
  induction l with
  | nil => simp [jsSortStable]
  | cons x xs ih => exact insertOrdered_pairwise le htrans htot x (jsSortStable le xs) ih

/-- Two sorted permutations of each other agree when no two distinct
entries share a sort key. -/
theorem sorted_perm_unique {κ : Type} {le : α → α → Bool} {k : α → κ}
    (hanti : ∀ a b, le a b = true → le b a = true → k a = k b)
    {l₁ l₂ : List α} (hp : l₁.Perm l₂)
    (h₁ : l₁.Pairwise fun a b => le a b = true)
    (h₂ : l₂.Pairwise fun a b => le a b = true)
    (hk : l₁.Pairwise fun a b => k a ≠ k b) : l₁ = l₂ := by
  haveI : IsAntisymm α (fun a b => le a b = true ∧ k a ≠ k b) :=
    ⟨fun a b hab hba => absurd (hanti a b hab.1 hba.1) hab.2⟩
  have hk₂ : l₂.Pairwise fun a b => k a ≠ k b :=
    (hp.pairwise_iff fun h => h.symm).mp hk
  exact List.eq_of_perm_of_sorted (r := fun a b => le a b = true ∧ k a ≠ k b)
    hp (h₁.and hk) (h₂.and hk₂)

theorem edLE_trans : ∀ a b c, edLE a b = true → edLE b c = true → edLE a c = true := by
  intro a b c hab hbc
  simp only [edLE, decide_eq_true_eq, cmpEdits] at *
  split_ifs at * <;> omega

theorem edLE_total : ∀ a b, edLE a b = true ∨ edLE b a = true := by
  intro a b
  simp only [edLE, decide_eq_true_eq, cmpEdits]
  split_ifs <;> omega

theorem edLE_anti : ∀ a b : TextEdit, edLE a b = true → edLE b a = true →
    a.range.start = b.range.start := by
  intro a b hab hba
  simp only [edLE, decide_eq_true_eq, cmpEdits] at hab hba
  have h2 : a.range.start.line = b.range.start.line ∧
      a.range.start.character = b.range.start.character := by
    split_ifs at hab hba <;> omega
  calc a.range.start = ⟨a.range.start.line, a.range.start.character⟩ := rfl
    _ = ⟨b.range.start.line, b.range.start.character⟩ := by rw [h2.1, h2.2]
    _ = b.range.start := rfl

theorem jsSortStable_eq_of_perm {l₁ l₂ : List TextEdit} (hp : l₁.Perm l₂)
    (hk : l₁.Pairwise fun a b => a.range.start ≠ b.range.start) :
    jsSortStable edLE l₁ = jsSortStable edLE l₂ := by
  refine sorted_perm_unique (k := fun e => e.range.start) edLE_anti
    ((jsSortStable_perm edLE l₁).trans (hp.trans (jsSortStable_perm edLE l₂).symm))
    (jsSortStable_pairwise edLE edLE_trans edLE_total l₁)
    (jsSortStable_pairwise edLE edLE_trans edLE_total l₂)
    (((jsSortStable_perm edLE l₁).pairwise_iff fun h => h.symm).mpr hk)

/-- C3 counterexample: the two zero-width edits `X` and `Y` inserted at
the same position (0,1) of the file `ab` are pairwise non-overlapping
(each empty range ends where the other starts), yet the two orders
produce `aYXb` and `aXYb`: the stable descending sort keeps tied edits
in input order, so order independence fails for edits sharing a start
position. -/
theorem c3_counterexample :
    ([c3editX, c3editY]).Pairwise NonOverlap ∧
    ([c3editX, c3editY]).Perm [c3editY, c3editX] ∧
    applyWorkspaceEdit c3content [c3editX, c3editY] ≠
      applyWorkspaceEdit c3content [c3editY, c3editX] :=
  ⟨by decide, List.Perm.swap c3editY c3editX [], by decide⟩

/-- C3 (amended): applying a workspace edit is order independent for
pairwise non-overlapping edits *no two of which share a start
position*: any permutation of the edit list yields the same file
content, because the descending (start.line, start.character) sort of
distinct keys is unique regardless of input order. -/
theorem c3_order_independent :
    ∀ (content : List Char) (l₁ l₂ : List TextEdit),
      l₁.Perm l₂ →
      l₁.Pairwise NonOverlap →
      (l₁.Pairwise fun a b => a.range.start ≠ b.range.start) →
      applyWorkspaceEdit content l₁ = applyWorkspaceEdit content l₂ := by
  intro content l₁ l₂ hp _ hk
  unfold applyWorkspaceEdit
  rw [jsSortStable_eq_of_perm hp hk]

/-- C3 witness: two non-overlapping single-character replacements on
different lines of `ab\ncd` give the same result in either order. -/
theorem c3_order_independent_witness :
    applyWorkspaceEdit c3wContent [c3wEdit1, c3wEdit2] =
      applyWorkspaceEdit c3wContent [c3wEdit2, c3wEdit1] :=
  c3_order_independent c3wContent [c3wEdit1, c3wEdit2] [c3wEdit2, c3wEdit1]
    (List.Perm.swap c3wEdit2 c3wEdit1 []) (by decide) (by decide)

/-! ## Claim C8 -/

theorem convertGo_spec :
    ∀ (xs : List Nat) (rs re : Nat), xs.Pairwise (· < ·) → (∀ x ∈ xs, re < x) → rs ≤ re →
      (∀ r ∈ convertGo xs rs re, r.start ≤ r.stop) ∧
      (∀ r ∈ convertGo xs rs re, rs ≤ r.start) ∧
      (convertGo xs rs re).Pairwise (fun a b => a.stop + 1 < b.start) ∧
      (∀ n, (∃ r ∈ convertGo xs rs re, r.start ≤ n ∧ n ≤ r.stop) ↔
        (rs ≤ n ∧ n ≤ re) ∨ n ∈ xs) := by
  intro xs
  induction xs with
  | nil =>
    intro rs re _ _ hle
    simp only [convertGo]
    refine ⟨?_, ?_, ?_, fun n => ?_⟩
    · intro r hr
      rcases List.mem_singleton.mp hr with rfl
      exact hle
    · intro r hr
      rcases List.mem_singleton.mp hr with rfl
      exact le_refl rs
    · exact List.pairwise_singleton _ _
    · constructor
      · rintro ⟨r, hr, hnr⟩
        rcases List.mem_singleton.mp hr with rfl
        exact Or.inl hnr
      · rintro (⟨h1, h2⟩ | h)
        · exact ⟨⟨rs, re⟩, List.mem_singleton_self _, h1, h2⟩
        · simp at h
  | cons x xs ih =>
    intro rs re hpw hgt hle
    rw [List.pairwise_cons] at hpw
    by_cases hx : x = re + 1
    · simp only [convertGo, if_pos hx]
      have hgt2 : ∀ y ∈ xs, x < y := hpw.1
      have hle2 : rs ≤ x := by omega
      obtain ⟨ha, hb, hc, hd⟩ := ih rs x hpw.2 hgt2 hle2
      refine ⟨ha, hb, hc, fun n => ?_⟩
      rw [hd n]
      simp only [List.mem_cons]
      constructor
      · rintro (⟨h1, h2⟩ | h)
        · by_cases h4 : n ≤ re
          · exact Or.inl ⟨h1, h4⟩
          · exact Or.inr (Or.inl (by omega))
        · exact Or.inr (Or.inr h)
      · rintro (⟨h1, h2⟩ | rfl | h)
        · exact Or.inl ⟨h1, by omega⟩
        · exact Or.inl ⟨by omega, by omega⟩
        · exact Or.inr h
    · simp only [convertGo, if_neg hx]
      have hgtx : re < x := hgt x (List.mem_cons_self x xs)
      have hx2 : re + 1 < x := by omega
      obtain ⟨ha, hb, hc, hd⟩ := ih x x hpw.2 hpw.1 (le_refl x)
      refine ⟨?_, ?_, ?_, fun n => ?_⟩
      · intro r hr
        rcases List.mem_cons.mp hr with rfl | hr'
        · exact hle
        · exact ha r hr'
      · intro r hr
        rcases List.mem_cons.mp hr with rfl | hr'
        · exact le_refl rs
        · exact le_trans (by omega : rs ≤ x) (hb r hr')
      · rw [List.pairwise_cons]
        refine ⟨?_, hc⟩
        intro r hr
        have hxr := hb r hr
        show re + 1 < r.start
        omega
      · simp only [List.mem_cons]
        constructor
        · rintro ⟨r, hr, hnr⟩
          rcases hr with rfl | hr'
          · exact Or.inl hnr
          · rcases (hd n).mp ⟨r, hr', hnr⟩ with ⟨h1, h2⟩ | h
            · exact Or.inr (Or.inl (by omega))
            · exact Or.inr (Or.inr h)
        · rintro (⟨h1, h2⟩ | rfl | h)
          · exact ⟨⟨rs, re⟩, Or.inl rfl, h1, h2⟩
          · obtain ⟨r, hr, hnr⟩ := (hd n).mpr (Or.inl ⟨le_refl n, le_refl n⟩)
            exact ⟨r, Or.inr hr, hnr⟩
          · obtain ⟨r, hr, hnr⟩ := (hd n).mpr (Or.inr h)
            exact ⟨r, Or.inr hr, hnr⟩

/-- C8: for every finite set of line indices (a duplicate-free list in
any order), `convertLinesToRanges` returns well-formed ranges, pairwise
disjoint and in ascending order with gaps of at least one line between
them (so adjacent ranges are never mergeable, i.e. each range is a
maximal contiguous run), whose union covers exactly the given set. -/
theorem c8_collapse_correct :
    ∀ l : List Nat, l.Nodup →
      (∀ r ∈ convertLinesToRanges l, r.start ≤ r.stop) ∧
      (convertLinesToRanges l).Pairwise (fun a b => a.stop + 1 < b.start) ∧
      (∀ n, (∃ r ∈ convertLinesToRanges l, r.start ≤ n ∧ n ≤ r.stop) ↔ n ∈ l) := by
  intro l hnd
  have hperm := jsSortStable_perm Nat.ble l
  have hpw : (jsSortStable Nat.ble l).Pairwise (fun a b => Nat.ble a b = true) :=
    jsSortStable_pairwise Nat.ble
      (fun a b c hab hbc => by simp only [Nat.ble_eq] at *; omega)
      (fun a b => by simp only [Nat.ble_eq]; omega) l
  have hnd2 : (jsSortStable Nat.ble l).Nodup := hperm.nodup_iff.mpr hnd
  have hlt : (jsSortStable Nat.ble l).Pairwise (· < ·) :=
    (hpw.and hnd2).imp fun h => lt_of_le_of_ne (by simpa [Nat.ble_eq] using h.1) h.2
  unfold convertLinesToRanges
  cases hs : jsSortStable Nat.ble l with
  | nil =>
    have hl : l = [] := ((hs ▸ hperm).symm).eq_nil
    subst hl
    exact ⟨by simp, by simp, fun n => by simp⟩
  | cons x xs =>
    rw [hs] at hperm hlt
    rw [List.pairwise_cons] at hlt
    obtain ⟨ha, hb, hc, hd⟩ := convertGo_spec xs x x hlt.2 hlt.1 (le_refl x)
    refine ⟨ha, hc, fun n => ?_⟩
    rw [hd n, ← hperm.mem_iff]
    simp only [List.mem_cons]
    constructor
    · rintro (⟨h1, h2⟩ | h)
      · exact Or.inl (by omega)
      · exact Or.inr h
    · rintro (rfl | h)
      · exact Or.inl ⟨le_refl n, le_refl n⟩
      · exact Or.inr h

/-- C8 witness at the set `[12, 3, 4]`. -/
theorem c8_collapse_correct_witness :
    (∀ r ∈ convertLinesToRanges [12, 3, 4], r.start ≤ r.stop) ∧
    (convertLinesToRanges [12, 3, 4]).Pairwise (fun a b => a.stop + 1 < b.start) ∧
    (∀ n, (∃ r ∈ convertLinesToRanges [12, 3, 4], r.start ≤ n ∧ n ≤ r.stop) ↔
      n ∈ [12, 3, 4]) :=
  c8_collapse_correct [12, 3, 4] (by decide)

/-! ## Claim C7 -/

theorem mem_insertLine (s : List Nat) (x n : Nat) :
    n ∈ insertLine s x ↔ n ∈ s ∨ n = x := by
  unfold insertLine
  split
  · constructor
    · exact Or.inl
    · rintro (h | rfl)
      · exact h
      · assumption
  · simp [List.mem_append]

theorem mem_addLines :
    ∀ (cnt lo : Nat) (s : List Nat) (n : Nat),
      n ∈ addLines s lo cnt ↔ n ∈ s ∨ (lo ≤ n ∧ n < lo + cnt) := by
  intro cnt
  induction cnt with
  | zero =>
    intro lo s n
    simp [addLines, List.range']
  | succ c ih =>
    intro lo s n
    unfold addLines at *
    rw [List.range'_succ, List.foldl_cons]
    rw [ih (lo + 1) (insertLine s lo) n, mem_insertLine]
    constructor
    · rintro ((h | rfl) | ⟨h1, h2⟩)
      · exact Or.inl h
      · exact Or.inr (by omega)
      · exact Or.inr (by omega)
    · rintro (h | ⟨h1, h2⟩)
      · exact Or.inl (Or.inl h)
      · by_cases hlo : n = lo
        · exact Or.inl (Or.inr hlo)
        · exact Or.inr (by omega)

theorem mem_displayFold :
    ∀ (locs : List Location) (total C : Nat) (acc : List Nat) (n : Nat),
      (n ∈ locs.foldl
        (fun s loc =>
          addLines
            (addLines
              (addLines s (loc.range.start.line - C)
                (loc.range.start.line + 1 - (loc.range.start.line - C)))
              loc.range.start.line (loc.range.stop.line + 1 - loc.range.start.line))
            loc.range.stop.line
            (min total (loc.range.stop.line + C + 1) - loc.range.stop.line)) acc) ↔
      n ∈ acc ∨ ∃ loc ∈ locs,
        ((loc.range.start.line - C ≤ n ∧ n ≤ loc.range.start.line) ∨
         (loc.range.start.line ≤ n ∧ n ≤ loc.range.stop.line) ∨
         (loc.range.stop.line ≤ n ∧ n < min total (loc.range.stop.line + C + 1))) := by
  intro locs total C
  induction locs with
  | nil => intro acc n; simp
  | cons loc locs ih =>
    intro acc n
    rw [List.foldl_cons, ih, mem_addLines, mem_addLines, mem_addLines]
    simp only [List.mem_cons]
    constructor
    · rintro ((((h | ⟨h1, h2⟩) | ⟨h1, h2⟩) | ⟨h1, h2⟩) | ⟨l2, hm, hint⟩)
      · exact Or.inl h
      · exact Or.inr ⟨loc, Or.inl rfl, Or.inl ⟨h1, by omega⟩⟩
      · exact Or.inr ⟨loc, Or.inl rfl, Or.inr (Or.inl ⟨h1, by omega⟩)⟩
      · exact Or.inr ⟨loc, Or.inl rfl, Or.inr (Or.inr ⟨h1, by omega⟩)⟩
      · exact Or.inr ⟨l2, Or.inr hm, hint⟩
    · rintro (h | ⟨l2, rfl | hm, hint⟩)
      · exact Or.inl (Or.inl (Or.inl (Or.inl h)))
      · rcases hint with ⟨h1, h2⟩ | ⟨h1, h2⟩ | ⟨h1, h2⟩
        · exact Or.inl (Or.inl (Or.inl (Or.inr ⟨h1, by omega⟩)))
        · exact Or.inl (Or.inl (Or.inr ⟨h1, by omega⟩))
        · exact Or.inl (Or.inr ⟨h1, by omega⟩)
      · exact Or.inr ⟨l2, hm, hint⟩

/-- C7 (amended): for well-formed references (`sl ≤ el < total`) the
displayed line set is exactly the union of the inclusive intervals
`[max(0, sl-C) .. min(total-1, el+C)]` — the upper clip is `total-1`,
the last existing line index, not the `total` of the claim; together
with the worked example: a 20-line file with references at lines 3, 4
and 12 and a context of 2 collapses to the ranges `[1..6]` and
`[10..14]`, rendered with a `...` separator line between them. -/
theorem c7_context_lines :
    (∀ (locs : List Location) (total C : Nat),
      (∀ loc ∈ locs,
        loc.range.start.line ≤ loc.range.stop.line ∧ loc.range.stop.line < total) →
      ∀ n, n ∈ getLineRangesToDisplay locs total C ↔
        ∃ loc ∈ locs, loc.range.start.line - C ≤ n ∧
          n ≤ min (total - 1) (loc.range.stop.line + C)) ∧
    convertLinesToRanges (getLineRangesToDisplay exLocs 20 2) = [⟨1, 6⟩, ⟨10, 14⟩] ∧
    (formatLinesWithRanges ex20Lines [⟨1, 6⟩, ⟨10, 14⟩]).length = 12 ∧
    (formatLinesWithRanges ex20Lines [⟨1, 6⟩, ⟨10, 14⟩]).getD 6 [] = dotsLine := by
  refine ⟨?_, by decide, by decide, by decide⟩
  intro locs total C hwf n
  have h := mem_displayFold locs total C [] n
  constructor
  · intro hn
    rcases h.mp hn with h0 | ⟨loc, hmem, hint⟩
    · simp at h0
    · obtain ⟨hw1, hw2⟩ := hwf loc hmem
      exact ⟨loc, hmem, by omega⟩
  · rintro ⟨loc, hmem, h1, h2⟩
    obtain ⟨hw1, hw2⟩ := hwf loc hmem
    exact h.mpr (Or.inr ⟨loc, hmem, by omega⟩)

/-- C7 counterexample: in a 5-line file with one reference at line 4 and
a context of 2, the claim formula `[max(0, sl-C) .. min(total, el+C)]`
contains the line index 5 = `total`, which does not exist and is not in
the displayed set the code computes (`{2, 3, 4}`). -/
theorem c7_counterexample :
    claimedDisplaySet [c7loc] 5 2 5 ∧ 5 ∉ getLineRangesToDisplay [c7loc] 5 2 := by
  constructor
  · unfold claimedDisplaySet
    decide
  · decide

/-- C7 witness: line 5 of the worked example is displayed and the
membership characterization holds for it. -/
theorem c7_context_lines_witness :
    (∀ loc ∈ exLocs,
      loc.range.start.line ≤ loc.range.stop.line ∧ loc.range.stop.line < 20) ∧
    (5 ∈ getLineRangesToDisplay exLocs 20 2 ↔
      ∃ loc ∈ exLocs, loc.range.start.line - 2 ≤ 5 ∧
        5 ≤ min (20 - 1) (loc.range.stop.line + 2)) :=
  ⟨by decide, c7_context_lines.1 exLocs 20 2 (by decide) 5⟩

/-! ## Claim C6 -/

theorem consHead_ne_nil (x : α) (S : List (List α)) : consHead x S ≠ [] := by
  cases S <;> simp [consHead]

theorem splitOn1_ne_nil [DecidableEq α] (c : α) : ∀ l, splitOn1 c l ≠ [] := by
  intro l
  induction l with
  | nil => simp [splitOn1]
  | cons x xs ih =>
    unfold splitOn1
    split
    · simp
    · exact consHead_ne_nil x _

theorem splitOn2_ne_nil [DecidableEq α] (c₁ c₂ : α) : ∀ l, splitOn2 c₁ c₂ l ≠ [] := by
  intro l
  match l with
  | [] => simp [splitOn2]
  | [x] => simp [splitOn2]
  | x :: y :: xs =>
    unfold splitOn2
    split
    · simp
    · exact consHead_ne_nil x _

theorem consHead_length (x : α) (S : List (List α)) (h : S ≠ []) :
    (consHead x S).length = S.length := by
  cases S with
  | nil => exact absurd rfl h
  | cons a t => rfl

theorem splitOn2_length_le_aux [DecidableEq α] (c₁ c₂ : α) (hne : c₁ ≠ c₂) :
    ∀ (n : Nat) (l : List α), l.length ≤ n →
      (splitOn2 c₁ c₂ l).length ≤ (splitOn1 c₂ l).length := by
  intro n
  induction n with
  | zero =>
    intro l hl
    have hnil : l = [] := List.length_eq_zero.mp (Nat.le_zero.mp hl)
    subst hnil
    simp [splitOn2, splitOn1]
  | succ n ih =>
    intro l hl
    match l with
    | [] => simp [splitOn2, splitOn1]
    | [x] =>
      by_cases hx : x = c₂
      · simp [splitOn2, splitOn1, hx, consHead]
      · simp [splitOn2, splitOn1, hx, consHead]
    | x :: y :: xs =>
      by_cases hxy : x = c₁ ∧ y = c₂
      · obtain ⟨rfl, rfl⟩ := hxy
        have h1 : splitOn2 x y (x :: y :: xs) = [] :: splitOn2 x y xs := by
          simp [splitOn2]
        have h2 : splitOn1 y (x :: y :: xs) = consHead x ([] :: splitOn1 y xs) := by
          simp [splitOn1, hne]
        rw [h1, h2, consHead_length _ _ (by simp)]
        simp only [List.length_cons]
        have h3 := ih xs (by simp only [List.length_cons] at hl; omega)
        omega
      · have h1 : splitOn2 c₁ c₂ (x :: y :: xs) = consHead x (splitOn2 c₁ c₂ (y :: xs)) := by
          simp [splitOn2, hxy]
        rw [h1, consHead_length _ _ (splitOn2_ne_nil c₁ c₂ _)]
        have hIH := ih (y :: xs) (by simp only [List.length_cons] at hl ⊢; omega)
        by_cases hx : x = c₂
        · have h2 : splitOn1 c₂ (x :: y :: xs) = [] :: splitOn1 c₂ (y :: xs) := by
            simp [splitOn1, hx]
          rw [h2]
          simp only [List.length_cons]
          omega
        · have h2 : splitOn1 c₂ (x :: y :: xs) = consHead x (splitOn1 c₂ (y :: xs)) := by
            simp [splitOn1, hx]
          rw [h2, consHead_length _ _ (splitOn1_ne_nil c₂ _)]
          exact hIH

theorem editLines_ne_nil (content : List Char) : editLines content ≠ [] := by
  unfold editLines
  split
  · exact splitOn2_ne_nil _ _ _
  · exact splitOn1_ne_nil _ _

theorem editLines_length_le (content : List Char) :
    (editLines content).length ≤ (splitOn1 nlC content).length := by
  unfold editLines
  split
  · exact splitOn2_length_le_aux crC nlC (by decide) content.length content (le_refl _)
  · exact le_refl _

theorem joinNL_cons (l : List Char) (ls : List (List Char)) (h : ls ≠ []) :
    joinNL (l :: ls) = l ++ nlC :: joinNL ls := by
  cases ls with
  | nil => exact absurd rfl h
  | cons a t => rfl

theorem joinNL_consHead (c : Char) (S : List (List Char)) (h : S ≠ []) :
    joinNL (consHead c S) = c :: joinNL S := by
  cases S with
  | nil => exact absurd rfl h
  | cons a t =>
    cases t with
    | nil => rfl
    | cons b t2 => rfl

theorem joinNL_splitOn1 : ∀ content : List Char, joinNL (splitOn1 nlC content) = content := by
  intro content
  induction content with
  | nil => rfl
  | cons c cs ih =>
    by_cases hc : c = nlC
    · subst hc
      have h1 : splitOn1 nlC (nlC :: cs) = [] :: splitOn1 nlC cs := by simp [splitOn1]
      rw [h1, joinNL_cons _ _ (splitOn1_ne_nil _ _), ih]
      rfl
    · have h1 : splitOn1 nlC (c :: cs) = consHead c (splitOn1 nlC cs) := by
        simp [splitOn1, hc]
      rw [h1, joinNL_consHead _ _ (splitOn1_ne_nil _ _), ih]

theorem joinNL_append_singleton (S : List (List Char)) (L : List Char) (h : S ≠ []) :
    joinNL (S ++ [L]) = joinNL S ++ nlC :: L := by
  induction S with
  | nil => exact absurd rfl h
  | cons a t ih =>
    cases t with
    | nil => rfl
    | cons b t2 =>
      have ih2 := ih (by simp)
      show joinNL (a :: ((b :: t2) ++ [L])) = joinNL (a :: b :: t2) ++ nlC :: L
      rw [joinNL_cons _ _ (by simp), ih2, joinNL_cons a (b :: t2) (by simp)]
      simp [List.append_assoc]

theorem joinNL_set_last_append (S : List (List Char)) (t : List Char) : S ≠ [] →
    joinNL (S.set (S.length - 1) ((S.getD (S.length - 1) []) ++ t)) = joinNL S ++ t := by
  induction S with
  | nil => intro h; exact absurd rfl h
  | cons a T ih =>
    intro _
    cases T with
    | nil => simp [joinNL]
    | cons b T2 =>
      have ih2 := ih (by simp)
      simp only [List.length_cons, Nat.add_sub_cancel] at ih2 ⊢
      rw [List.set_cons_succ, List.getD_cons_succ]
      have hset : (b :: T2).set T2.length ((b :: T2).getD T2.length [] ++ t) ≠ [] := by
        rw [Ne, List.set_eq_nil_iff]
        simp
      rw [joinNL_cons _ _ hset, ih2, joinNL_cons a (b :: T2) (by simp)]
      simp [List.append_assoc]

theorem joinNL_set_insert :
    ∀ (ls : List (List Char)) (i c : Nat) (t : List Char), i < ls.length →
      ∃ u v, joinNL (ls.set i ((ls.getD i []).take c ++ t ++ (ls.getD i []).drop c))
          = u ++ t ++ v ∧ u ++ v = joinNL ls := by
  intro ls
  induction ls with
  | nil => intro i c t h; simp at h
  | cons L rest ih =>
    intro i c t h
    cases i with
    | zero =>
      rw [List.set_cons_zero, List.getD_cons_zero]
      cases rest with
      | nil =>
        refine ⟨L.take c, L.drop c, by simp [joinNL], ?_⟩
        simp [joinNL, List.take_append_drop]
      | cons r rs =>
        refine ⟨L.take c, L.drop c ++ nlC :: joinNL (r :: rs), ?_, ?_⟩
        · rw [joinNL_cons _ _ (by simp)]
          simp [List.append_assoc]
        · rw [joinNL_cons L (r :: rs) (by simp), ← List.append_assoc,
            List.take_append_drop]
    | succ i2 =>
      have h2 : i2 < rest.length := by simpa using h
      have hrest : rest ≠ [] := by
        intro hh
        subst hh
        simp at h2
      obtain ⟨u2, v2, hu, hv⟩ := ih i2 c t h2
      rw [List.set_cons_succ, List.getD_cons_succ]
      have hset : rest.set i2 ((rest.getD i2 []).take c ++ t ++ (rest.getD i2 []).drop c) ≠ [] := by
        rw [Ne, List.set_eq_nil_iff]
        exact hrest
      refine ⟨L ++ nlC :: u2, v2, ?_, ?_⟩
      · rw [joinNL_cons _ _ hset, hu]
        simp [List.append_assoc]
      · rw [joinNL_cons L rest hrest]
        simp only [List.append_assoc, List.cons_append]
        rw [hv]

theorem applyWorkspaceEdit_single (content : List Char) (p : Position) (t : List Char) :
    applyWorkspaceEdit content [⟨⟨p, p⟩, t⟩] =
      joinNL ((splitOn1 nlC content).set p.line
        (((splitOn1 nlC content).getD p.line []).take p.character ++ t ++
         ((splitOn1 nlC content).getD p.line []).drop p.character)) := by
  simp [applyWorkspaceEdit, jsSortStable, insertOrdered, applyOneEdit]

theorem mem_consHead [DecidableEq α] {seg : List α} {x : α} {S : List (List α)} :
    seg ∈ consHead x S →
      (S = [] ∧ seg = [x]) ∨ (∃ h2 t2, S = h2 :: t2 ∧ (seg = x :: h2 ∨ seg ∈ t2)) := by
  cases S with
  | nil =>
    intro h
    simp [consHead] at h
    exact Or.inl ⟨rfl, h⟩
  | cons a t =>
    intro h
    rcases List.mem_cons.mp h with rfl | h2
    · exact Or.inr ⟨a, t, rfl, Or.inl rfl⟩
    · exact Or.inr ⟨a, t, rfl, Or.inr h2⟩

theorem mem_splitOn1_no_sep [DecidableEq α] (c : α) :
    ∀ (l : List α) (seg : List α), seg ∈ splitOn1 c l → c ∉ seg := by
  intro l
  induction l with
  | nil =>
    intro seg h
    simp [splitOn1] at h
    simp [h]
  | cons x xs ih =>
    intro seg h
    by_cases hx : x = c
    · subst hx
      rw [show splitOn1 x (x :: xs) = [] :: splitOn1 x xs from by simp [splitOn1]] at h
      rcases List.mem_cons.mp h with rfl | h2
      · simp
      · exact ih seg h2
    · rw [show splitOn1 c (x :: xs) = consHead x (splitOn1 c xs) from by
        simp [splitOn1, hx]] at h
      rcases mem_consHead h with ⟨hS, rfl⟩ | ⟨h2, t2, hS, rfl | hmem⟩
      · intro hc
        exact hx (List.mem_singleton.mp hc).symm
      · have hh2 : c ∉ h2 := ih h2 (by rw [hS]; exact List.mem_cons_self _ _)
        intro hc
        rcases List.mem_cons.mp hc with rfl | hc2
        · exact hx rfl
        · exact hh2 hc2
      · exact ih seg (by rw [hS]; exact List.mem_cons_of_mem _ hmem)

theorem getLast?_joinNL_ne (S2 : List (List Char)) (Lst : List Char)
    (hL : Lst ≠ []) (hnl : nlC ∉ Lst) :
    (joinNL (S2 ++ [Lst])).getLast? ≠ some nlC := by
  rcases List.eq_nil_or_concat Lst with rfl | ⟨L2, x, rfl⟩
  · exact absurd rfl hL
  · rw [List.concat_eq_append] at hnl ⊢
    have hx : x ≠ nlC := by
      intro hh
      subst hh
      exact hnl (List.mem_append.mpr (Or.inr (List.mem_singleton_self _)))
    cases S2 with
    | nil =>
      rw [show joinNL ([] ++ [L2 ++ [x]]) = L2 ++ [x] from rfl, List.getLast?_concat]
      simp [hx]
    | cons a t =>
      rw [joinNL_append_singleton _ _ (by simp),
        show nlC :: (L2 ++ [x]) = (nlC :: L2) ++ [x] from rfl, ← List.append_assoc,
        List.getLast?_concat]
      simp [hx]

/-- C6 counterexample: the claim promises that a past-EOF edit "appends
the new text".  On the mixed-terminator file `a\nb\r\nc` (which does not
end in a newline, so an append must produce `content ++ newText`),
`getRange` computes the zero-width position (1,1) in CRLF-split
coordinates, but `applyWorkspaceEdit` splits on LF, so inserting `X`
yields `a\nbX\r\nc` — the text lands before the final line instead of
at the end of the file. -/
theorem c6_counterexample :
    numLines c6mixed < 3 ∧
    c6mixed.getLast? ≠ some nlC ∧
    getRange c6mixed 3 5 = Except.ok ⟨⟨1, 1⟩, ⟨1, 1⟩⟩ ∧
    applyWorkspaceEdit c6mixed [⟨⟨⟨1, 1⟩, ⟨1, 1⟩⟩, c6newText⟩] = c6result ∧
    c6result ≠ c6mixed ++ c6newText := by
  refine ⟨by decide, by decide, by rfl, by decide, by decide⟩

/-- C6 (amended): for every file content and edit whose 1-based
`startLine` exceeds the line count, `getRange` returns a zero-width
range (`start = end`) at the EOF position, applying it inserts the new
text while preserving every byte of the existing content, and — when
the content contains no CRLF pair, so both split phases agree — the
result is exactly the content with the new text appended before its
trailing newline, if any. -/
theorem c6_pastEOF_append :
    ∀ (content : List Char) (startLine endLine : Nat) (newText : List Char),
      numLines content < startLine →
      ∃ r, getRange content startLine endLine = Except.ok r ∧
        r.start = r.stop ∧
        (∃ u v, applyWorkspaceEdit content [⟨r, newText⟩] = u ++ newText ++ v ∧
          u ++ v = content) ∧
        (containsSeq2 crC nlC content = false →
          applyWorkspaceEdit content [⟨r, newText⟩] =
            stripTrailNL content ++ newText ++ trailNL content) := by
  intro content startLine endLine t h
  have hne := editLines_ne_nil content
  have hpos : 0 < (editLines content).length := List.length_pos.mpr hne
  unfold numLines at h
  have hr : getRange content startLine endLine =
      Except.ok ⟨eofPos content, eofPos content⟩ := by
    unfold getRange
    rw [if_neg (by omega), if_pos (by omega)]
  have hlci : lastContentLineIdx content ≤ (editLines content).length - 1 := by
    unfold lastContentLineIdx
    split <;> omega
  refine ⟨⟨eofPos content, eofPos content⟩, hr, rfl, ?_, ?_⟩
  · rw [applyWorkspaceEdit_single]
    have h3 : 0 < (splitOn1 nlC content).length :=
      List.length_pos.mpr (splitOn1_ne_nil _ _)
    have hlt : (eofPos content).line < (splitOn1 nlC content).length := by
      have h2 := editLines_length_le content
      show lastContentLineIdx content < _
      omega
    obtain ⟨u, v, h1, h2⟩ := joinNL_set_insert (splitOn1 nlC content)
      (eofPos content).line (eofPos content).character t hlt
    exact ⟨u, v, h1, by rw [h2, joinNL_splitOn1]⟩
  · intro hlf
    have hlines : editLines content = splitOn1 nlC content := by
      unfold editLines
      rw [hlf]
      simp
    rcases List.eq_nil_or_concat (splitOn1 nlC content) with hS | ⟨S2, Lst, hS⟩
    · exact absurd hS (splitOn1_ne_nil _ _)
    rw [List.concat_eq_append] at hS
    have hcontent : content = joinNL (S2 ++ [Lst]) := by
      rw [← hS, joinNL_splitOn1]
    have hlen : (splitOn1 nlC content).length = S2.length + 1 := by
      rw [hS]
      simp
    have hgetLast : (splitOn1 nlC content).getD ((splitOn1 nlC content).length - 1) []
        = Lst := by
      rw [hS]
      simp [List.getD_append_right]
    by_cases hLst : Lst = []
    · subst hLst
      have hlciv : lastContentLineIdx content = (splitOn1 nlC content).length - 1 - 1 := by
        unfold lastContentLineIdx
        rw [hlines, hgetLast, if_pos rfl]
      cases S2 with
      | nil =>
        have hc : content = [] := by
          rw [hcontent]
          rfl
        subst hc
        rw [applyWorkspaceEdit_single]
        have he : eofPos ([] : List Char) = ⟨0, 0⟩ := rfl
        rw [he]
        simp [stripTrailNL, trailNL, joinNL, splitOn1]
      | cons a t2 =>
        have hS2 : (a :: t2) ≠ [] := by simp
        have hline : (eofPos content).line = (a :: t2).length - 1 := by
          show lastContentLineIdx content = _
          rw [hlciv, hlen]
          simp
        have hgd : (splitOn1 nlC content).getD ((a :: t2).length - 1) []
            = (a :: t2).getD ((a :: t2).length - 1) [] := by
          rw [hS]
          exact List.getD_append _ _ _ _ (by simp)
        have hchar : (eofPos content).character
            = ((a :: t2).getD ((a :: t2).length - 1) []).length := by
          show ((editLines content).getD (lastContentLineIdx content) []).length = _
          rw [hlines]
          rw [show lastContentLineIdx content = (a :: t2).length - 1 from hline, hgd]
        rw [applyWorkspaceEdit_single, hline, hchar, hgd, List.take_length,
          List.drop_length, List.append_nil, hS]
        have hidx : (a :: t2).length - 1 < (a :: t2).length := by simp
        rw [List.set_append, if_pos hidx]
        have hsetne : (a :: t2).set ((a :: t2).length - 1)
            ((a :: t2).getD ((a :: t2).length - 1) [] ++ t) ≠ [] := by
          rw [Ne, List.set_eq_nil_iff]
          exact hS2
        rw [joinNL_append_singleton _ _ hsetne,
          joinNL_set_last_append (a :: t2) t hS2]
        have hcontent2 : content = joinNL (a :: t2) ++ [nlC] := by
          rw [hcontent, joinNL_append_singleton _ _ hS2]
        have hlastnl : content.getLast? = some nlC := by
          rw [hcontent2, List.getLast?_concat]
        rw [show stripTrailNL content = joinNL (a :: t2) from by
            unfold stripTrailNL
            rw [if_pos hlastnl, hcontent2, List.dropLast_concat],
          show trailNL content = [nlC] from by
            unfold trailNL
            rw [if_pos hlastnl]]
    · have hlciv : lastContentLineIdx content = (splitOn1 nlC content).length - 1 := by
        unfold lastContentLineIdx
        rw [hlines, hgetLast, if_neg hLst]
      have happly : applyWorkspaceEdit content [⟨⟨eofPos content, eofPos content⟩, t⟩]
          = joinNL (splitOn1 nlC content) ++ t := by
        rw [applyWorkspaceEdit_single]
        have hline : (eofPos content).line = (splitOn1 nlC content).length - 1 := by
          show lastContentLineIdx content = _
          exact hlciv
        have hchar : (eofPos content).character = Lst.length := by
          show ((editLines content).getD (lastContentLineIdx content) []).length = _
          rw [hlines, hlciv, hgetLast]
        rw [hline, hchar, hgetLast, List.take_length, List.drop_length,
          List.append_nil, ← hgetLast]
        exact joinNL_set_last_append _ t (splitOn1_ne_nil _ _)
      have hmem : Lst ∈ splitOn1 nlC content := by
        rw [hS]
        exact List.mem_append.mpr (Or.inr (List.mem_singleton_self _))
      have hnl : content.getLast? ≠ some nlC := by
        rw [hcontent]
        exact getLast?_joinNL_ne S2 Lst hLst (mem_splitOn1_no_sep nlC content Lst hmem)
      rw [happly,
        show stripTrailNL content = content from by
          unfold stripTrailNL
          rw [if_neg hnl],
        show trailNL content = [] from by
          unfold trailNL
          rw [if_neg hnl],
        joinNL_splitOn1]
      simp

/-- C6 witness: appending `XY` past the end of the two-line file `a\nb`
(no trailing newline) yields `a\nbXY`. -/
theorem c6_pastEOF_append_witness :
    numLines c6wContent < 5 ∧
    (∃ r, getRange c6wContent 5 6 = Except.ok r ∧
      r.start = r.stop ∧
      (∃ u v, applyWorkspaceEdit c6wContent [⟨r, ("XY").toList⟩] = u ++ ("XY").toList ++ v ∧
        u ++ v = c6wContent) ∧
      (containsSeq2 crC nlC c6wContent = false →
        applyWorkspaceEdit c6wContent [⟨r, ("XY").toList⟩] =
          stripTrailNL c6wContent ++ ("XY").toList ++ trailNL c6wContent)) :=
  ⟨by decide, c6_pastEOF_append c6wContent 5 6 (("XY").toList) (by decide)⟩

/-! ## Claim C1 -/

theorem digitsLE_lt : ∀ (f n : Nat), ∀ d ∈ digitsLE f n, d < 10 := by
  intro f
  induction f with
  | zero => intro n d hd; simp [digitsLE] at hd
  | succ f ih =>
    intro n d hd
    cases n with
    | zero => simp [digitsLE] at hd
    | succ m =>
      rw [show digitsLE (f + 1) (m + 1) = ((m + 1) % 10) :: digitsLE f ((m + 1) / 10)
        from rfl] at hd
      rcases List.mem_cons.mp hd with rfl | hd2
      · exact Nat.mod_lt _ (by omega)
      · exact ih _ d hd2

theorem ofDigitsLE_digitsLE : ∀ n : Nat, ∀ f : Nat, n ≤ f →
    ofDigitsLE (digitsLE f n) = n := by
  intro n
  induction n using Nat.strong_induction_on with
  | _ n ih =>
    intro f hf
    cases f with
    | zero =>
      have hn : n = 0 := by omega
      subst hn
      rfl
    | succ f =>
      cases n with
      | zero => rfl
      | succ m =>
        show (m + 1) % 10 + 10 * ofDigitsLE (digitsLE f ((m + 1) / 10)) = m + 1
        have hdiv : (m + 1) / 10 < m + 1 := Nat.div_lt_self (by omega) (by omega)
        rw [ih ((m + 1) / 10) hdiv f (by omega)]
        omega

theorem digitsLE_ne_nil (n : Nat) (h : n ≠ 0) : digitsLE n n ≠ [] := by
  cases n with
  | zero => exact absurd rfl h
  | succ m => simp [digitsLE]

theorem natToBytes_bounds (n : Nat) : ∀ b ∈ natToBytes n, 48 ≤ b ∧ b ≤ 57 := by
  intro b hb
  unfold natToBytes at hb
  split at hb
  · rcases List.mem_singleton.mp hb with rfl
    omega
  · rw [List.mem_reverse] at hb
    obtain ⟨d, hd, rfl⟩ := List.mem_map.mp hb
    have := digitsLE_lt n n d hd
    omega

theorem foldl_digits_aux :
    ∀ (ds : List Nat) (a : Nat),
      List.foldl (fun x d => x * 10 + (d - 48)) a ((ds.map (· + 48)).reverse)
        = a * 10 ^ ds.length + ofDigitsLE ds := by
  intro ds
  induction ds with
  | nil => intro a; simp [ofDigitsLE]
  | cons d ds ih =>
    intro a
    simp only [List.map_cons, List.reverse_cons, List.foldl_concat, ih]
    show (a * 10 ^ ds.length + ofDigitsLE ds) * 10 + (d + 48 - 48)
      = a * 10 ^ (ds.length + 1) + ofDigitsLE (d :: ds)
    rw [show ofDigitsLE (d :: ds) = d + 10 * ofDigitsLE ds from rfl, pow_succ]
    ring_nf
    omega

theorem parseDec_natToBytes (n : Nat) : parseDec (natToBytes n) = some n := by
  by_cases h0 : n = 0
  · subst h0
    rfl
  · have hbounds := natToBytes_bounds n
    have hne : natToBytes n ≠ [] := by
      unfold natToBytes
      rw [if_neg h0]
      simp [digitsLE_ne_nil n h0]
    unfold parseDec
    rw [if_pos ?side]
    case side =>
      refine ⟨hne, ?_⟩
      rw [List.all_eq_true]
      intro b hb
      have := hbounds b hb
      simp
      omega
    unfold natToBytes
    rw [if_neg h0, foldl_digits_aux (digitsLE n n) 0,
      ofDigitsLE_digitsLE n n (le_refl n)]
    simp

theorem leadsWithL_head_ne {p x : Nat} (ps xs : List Nat) (h : p ≠ x) :
    leadsWithL (p :: ps) (x :: xs) = false := by
  simp [leadsWithL, h]

theorem indexOfSeq_at (A : List Nat) (r : List Nat) (h13 : 13 ∉ A) :
    indexOfSeq crlfcrlf (A ++ 13 :: 10 :: 13 :: 10 :: r) = some A.length := by
  induction A with
  | nil => rfl
  | cons a A ih =>
    have ha : (13 : Nat) ≠ a := by
      intro hh
      exact h13 (hh ▸ List.mem_cons_self a A)
    have h13A : 13 ∉ A := fun hh => h13 (List.mem_cons_of_mem a hh)
    show indexOfSeq crlfcrlf (a :: (A ++ 13 :: 10 :: 13 :: 10 :: r)) = some (A.length + 1)
    have hlw : leadsWithL crlfcrlf (a :: (A ++ 13 :: 10 :: 13 :: 10 :: r)) = false :=
      leadsWithL_head_ne _ _ ha
    unfold indexOfSeq
    rw [hlw]
    simp only [Bool.false_eq_true, if_false]
    rw [ih h13A]
    rfl

theorem indexOfSeq_take_none (A : List Nat) (h13 : 13 ∉ A) :
    ∀ m, m ≤ A.length + 3 →
      indexOfSeq crlfcrlf ((A ++ [13, 10, 13, 10]).take m) = none := by
  induction A with
  | nil =>
    intro m hm
    simp only [List.length_nil, Nat.zero_add] at hm
    interval_cases m <;> rfl
  | cons a A ih =>
    intro m hm
    cases m with
    | zero => rfl
    | succ m2 =>
      have ha : (13 : Nat) ≠ a := by
        intro hh
        exact h13 (hh ▸ List.mem_cons_self a A)
      have h13A : 13 ∉ A := fun hh => h13 (List.mem_cons_of_mem a hh)
      rw [List.cons_append, List.take_succ_cons]
      have hlw : leadsWithL crlfcrlf (a :: (A ++ [13, 10, 13, 10]).take m2) = false :=
        leadsWithL_head_ne _ _ ha
      unfold indexOfSeq
      rw [hlw]
      simp only [Bool.false_eq_true, if_false]
      rw [ih h13A m2 (by simp only [List.length_cons] at hm; omega)]
      rfl

theorem indexOfSeq_some_of_leadsWith :
    ∀ (l : List Nat) (i : Nat), leadsWithL crlfcrlf (l.drop i) = true →
      ∃ j, j ≤ i ∧ indexOfSeq crlfcrlf l = some j := by
  intro l
  induction l with
  | nil =>
    intro i h
    rw [List.drop_nil] at h
    simp [leadsWithL, crlfcrlf] at h
  | cons x xs ih =>
    intro i h
    by_cases hl : leadsWithL crlfcrlf (x :: xs) = true
    · refine ⟨0, Nat.zero_le i, ?_⟩
      unfold indexOfSeq
      rw [if_pos hl]
    · cases i with
      | zero => exact absurd h hl
      | succ i2 =>
        obtain ⟨j, hj, hfind⟩ := ih i2 h
        refine ⟨j + 1, by omega, ?_⟩
        unfold indexOfSeq
        rw [if_neg hl, hfind]
        rfl

theorem splitOn2_no13_aux :
    ∀ (n : Nat) (X : List Nat), X.length ≤ n → 13 ∉ X → splitOn2 13 10 X = [X] := by
  intro n
  induction n with
  | zero =>
    intro X hl _
    have hX : X = [] := List.length_eq_zero.mp (Nat.le_zero.mp hl)
    subst hX
    rfl
  | succ n ih =>
    intro X hl h13
    cases X with
    | nil => rfl
    | cons x X2 =>
      cases X2 with
      | nil => rfl
      | cons y xs =>
        have hx : x ≠ 13 := by
          intro hh
          exact h13 (hh ▸ List.mem_cons_self _ _)
        have h2 : splitOn2 13 10 (x :: y :: xs) = consHead x (splitOn2 13 10 (y :: xs)) := by
          rw [show splitOn2 13 10 (x :: y :: xs) =
            (if x = 13 ∧ y = 10 then [] :: splitOn2 13 10 xs
             else consHead x (splitOn2 13 10 (y :: xs))) from rfl]
          rw [if_neg (fun hc => hx hc.1)]
        rw [h2, ih (y :: xs) (by simp only [List.length_cons] at hl ⊢; omega)
          (fun hh => h13 (List.mem_cons_of_mem _ hh))]
        rfl

theorem splitOn2_no13 (X : List Nat) (h13 : 13 ∉ X) : splitOn2 13 10 X = [X] :=
  splitOn2_no13_aux X.length X (le_refl _) h13

theorem no13_header (n : Nat) : 13 ∉ clBytes ++ natToBytes n := by
  intro hmem
  rcases List.mem_append.mp hmem with h | h
  · exact absurd h (by decide)
  · have := natToBytes_bounds n 13 h
    omega

theorem parseHeaders_clean (n : Nat) :
    parseHeaders (clBytes ++ natToBytes n) = some n := by
  unfold parseHeaders
  rw [splitOn2_no13 _ (no13_header n)]
  show (if leadsWithL clBytes (clBytes ++ natToBytes n) = true
    then parseDec ((clBytes ++ natToBytes n).drop 16) else none) = some n
  rw [if_pos (leadsWithL_append clBytes (natToBytes n))]
  show parseDec ((clBytes ++ natToBytes n).drop clBytes.length) = some n
  rw [List.drop_left]
  exact parseDec_natToBytes n

theorem append_eq_split {x y u v : List Nat} (h : x ++ y = u ++ v)
    (hle : u.length ≤ x.length) :
    x = u ++ x.drop u.length ∧ x.drop u.length ++ y = v := by
  constructor
  · have htake : x.take u.length = u := by
      have h2 := congrArg (List.take u.length) h
      rwa [List.take_append_of_le_length hle, List.take_left] at h2
    conv_lhs => rw [← List.take_append_drop u.length x]
    rw [htake]
  · have h2 := congrArg (List.drop u.length) h
    rwa [List.drop_append_of_le_length hle, List.drop_left] at h2

theorem flatFrames_cons (b : List Nat) (r : List (List Nat)) :
    flatFrames (b :: r) = frameMessage b ++ flatFrames r := by
  simp [flatFrames]

theorem frameMessage_shape (b : List Nat) :
    frameMessage b = (clBytes ++ natToBytes b.length) ++ 13 :: 10 :: 13 :: 10 :: b := by
  simp [frameMessage, headerBytes, crlfcrlf, List.append_assoc]

theorem checkBody_lt {n : Nat} {buf : List Nat} (h : buf.length < n) :
    checkBody n buf = .need ⟨buf, some n⟩ := by
  unfold checkBody
  rw [if_pos h]

theorem checkBody_ge {n : Nat} {buf : List Nat} (h : ¬ buf.length < n) :
    checkBody n buf = .yield (buf.take n) ⟨buf.drop n, none⟩ := by
  unfold checkBody
  rw [if_neg h]

/-- Draining an aligned reader peels exactly the message bodies whose
frames are complete in the buffer, leaves later bytes buffered, and
reaches a state where `tryParse` waits for more data. -/
theorem drain_spec :
    ∀ (fuel : Nat) (s : ReaderState) (rest : List (List Nat)) (inc : List Nat),
      Align s rest inc →
      (∀ n, s.contentLength = some n → 1 ≤ n) →
      s.buffer.length < fuel →
      ∃ ms rest2 s2,
        drain fuel s = (ms, some s2) ∧ ms ++ rest2 = rest ∧ Align s2 rest2 inc ∧
          Stable s2 := by
  intro fuel
  induction fuel using Nat.strong_induction_on with
  | _ fuel ih =>
    intro s rest inc halign hside hfuel
    obtain ⟨fuel2, rfl⟩ : ∃ f2, fuel = f2 + 1 := ⟨fuel - 1, by omega⟩
    rcases halign with ⟨hcl, hbuf⟩ | ⟨b, rest2, rfl, hcl, hbuf⟩
    · cases rest with
      | nil =>
        have hb : s.buffer = [] := by
          have h2 : s.buffer ++ inc = [] := by
            rw [hbuf]
            rfl
          exact (List.append_eq_nil.mp h2).1
        have htp : tryParse s = .need s := by
          unfold tryParse
          rw [hcl, hb]
          rfl
        refine ⟨[], [], s, ?_, rfl, Or.inl ⟨hcl, hbuf⟩, Or.inl ⟨hcl, by rw [hb]; rfl⟩⟩
        unfold drain
        rw [htp]
      | cons b rest2 =>
        have hbuf2 : s.buffer ++ inc
            = (clBytes ++ natToBytes b.length) ++
              13 :: 10 :: 13 :: 10 :: (b ++ flatFrames rest2) := by
          rw [hbuf, flatFrames_cons, frameMessage_shape]
          simp [List.append_assoc]
        set A := clBytes ++ natToBytes b.length with hA
        have h13A : 13 ∉ A := no13_header b.length
        have hbuf3 : s.buffer ++ inc = (A ++ [13, 10, 13, 10]) ++ (b ++ flatFrames rest2) := by
          rw [hbuf2]
          simp [List.append_assoc]
        by_cases hlong : A.length + 4 ≤ s.buffer.length
        · have hle2 : (A ++ [13, 10, 13, 10]).length ≤ s.buffer.length := by
            simp only [List.length_append, List.length_cons, List.length_nil]
            omega
          obtain ⟨hsplit1, hsplit2⟩ := append_eq_split hbuf3 hle2
          set R := s.buffer.drop (A ++ [13, 10, 13, 10]).length with hR
          have hshape : s.buffer = A ++ 13 :: 10 :: 13 :: 10 :: R := by
            rw [hsplit1]
            simp [List.append_assoc]
          have hfind : indexOfSeq crlfcrlf s.buffer = some A.length := by
            rw [hshape]
            exact indexOfSeq_at A R h13A
          have htake : s.buffer.take A.length = A := by
            rw [hsplit1, List.take_append_of_le_length (by simp),
              List.take_append_of_le_length (le_refl _), List.take_length]
          have hdrop : s.buffer.drop (A.length + 4) = R := by
            rw [show A.length + 4 = (A ++ [13, 10, 13, 10]).length from by
              simp only [List.length_append, List.length_cons, List.length_nil]]
          have htp1 : tryParse s = checkBody b.length R := by
            unfold tryParse
            rw [hcl, hfind]
            show (match parseHeaders (s.buffer.take A.length) with
              | none => ReadStep.fail
              | some n => checkBody n (s.buffer.drop (A.length + 4)))
              = checkBody b.length R
            rw [htake, show parseHeaders A = some b.length from by
              rw [hA]; exact parseHeaders_clean b.length]
            show checkBody b.length (s.buffer.drop (A.length + 4)) = checkBody b.length R
            rw [hdrop]
          by_cases hRlen : R.length < b.length
          · have htp : tryParse s = .need ⟨R, some b.length⟩ := by
              rw [htp1, checkBody_lt hRlen]
            refine ⟨[], b :: rest2, ⟨R, some b.length⟩, ?_, rfl,
              Or.inr ⟨b, rest2, rfl, rfl, hsplit2⟩, Or.inr ⟨b.length, rfl, hRlen⟩⟩
            unfold drain
            rw [htp]
          · have htake2 : R.take b.length = b := by
              rw [(append_eq_split hsplit2 (by omega)).1,
                List.take_append_of_le_length (le_refl _), List.take_length]
            have hdrop2 : R.drop b.length ++ inc = flatFrames rest2 :=
              (append_eq_split hsplit2 (by omega)).2
            have htp : tryParse s = .yield b ⟨R.drop b.length, none⟩ := by
              rw [htp1, checkBody_ge hRlen, htake2]
            have hRlen1 : R.length = s.buffer.length - (A.length + 4) := by
              rw [hR]
              simp only [List.length_drop, List.length_append, List.length_cons,
                List.length_nil]
            have hlen2 : (R.drop b.length).length < fuel2 := by
              simp only [List.length_drop]
              omega
            obtain ⟨ms, rest3, s2, hdr, hms, halign2, hstable2⟩ :=
              ih fuel2 (by omega) ⟨R.drop b.length, none⟩ rest2 inc
                (Or.inl ⟨rfl, hdrop2⟩) (by intro n hn; cases hn) hlen2
            refine ⟨b :: ms, rest3, s2, ?_, by rw [List.cons_append, hms], halign2,
              hstable2⟩
            unfold drain
            rw [htp]
            simp [hdr]
        · have hmle : s.buffer.length ≤ A.length + 3 := by omega
          have hbufeq : s.buffer = (A ++ [13, 10, 13, 10]).take s.buffer.length := by
            have h2 := congrArg (List.take s.buffer.length) hbuf3
            rw [List.take_append_of_le_length (le_refl _), List.take_length,
              List.take_append_of_le_length (by
                simp only [List.length_append, List.length_cons, List.length_nil]
                omega)] at h2
            exact h2
          have hfind : indexOfSeq crlfcrlf s.buffer = none := by
            rw [hbufeq]
            exact indexOfSeq_take_none A h13A s.buffer.length hmle
          have htp : tryParse s = .need s := by
            unfold tryParse
            rw [hcl, hfind]
          refine ⟨[], b :: rest2, s, ?_, rfl, Or.inl ⟨hcl, hbuf⟩, Or.inl ⟨hcl, hfind⟩⟩
          unfold drain
          rw [htp]
    · by_cases hlen : s.buffer.length < b.length
      · have htp : tryParse s = .need ⟨s.buffer, some b.length⟩ := by
          unfold tryParse
          rw [hcl]
          exact checkBody_lt hlen
        have hseta : (⟨s.buffer, some b.length⟩ : ReaderState) = s := by
          cases s with
          | mk buf cl =>
            simp only at hcl
            rw [hcl]
        refine ⟨[], b :: rest2, s, ?_, rfl, Or.inr ⟨b, rest2, rfl, hcl, hbuf⟩,
          Or.inr ⟨b.length, hcl, hlen⟩⟩
        unfold drain
        rw [htp, hseta]
      · have htake2 : s.buffer.take b.length = b := by
          rw [(append_eq_split hbuf (by omega)).1,
            List.take_append_of_le_length (le_refl _), List.take_length]
        have hdrop2 : s.buffer.drop b.length ++ inc = flatFrames rest2 :=
          (append_eq_split hbuf (by omega)).2
        have htp : tryParse s = .yield b ⟨s.buffer.drop b.length, none⟩ := by
          unfold tryParse
          rw [hcl]
          show checkBody b.length s.buffer = _
          rw [checkBody_ge hlen, htake2]
        have hb1 : 1 ≤ b.length := hside b.length hcl
        have hlen2 : (s.buffer.drop b.length).length < fuel2 := by
          simp only [List.length_drop]
          omega
        obtain ⟨ms, rest3, s2, hdr, hms, halign2, hstable2⟩ :=
          ih fuel2 (by omega) ⟨s.buffer.drop b.length, none⟩ rest2 inc
            (Or.inl ⟨rfl, hdrop2⟩) (by intro n hn; cases hn) hlen2
        refine ⟨b :: ms, rest3, s2, ?_, by rw [List.cons_append, hms], halign2,
          hstable2⟩
        unfold drain
        rw [htp]
        simp [hdr]

/-- Feeding chunks one at a time and draining after each yields exactly
the message bodies whose frames have fully arrived. -/
theorem processFrom_spec :
    ∀ (chunks : List (List Nat)) (s : ReaderState) (rest : List (List Nat)),
      Align s rest chunks.flatten → Stable s →
      ∃ ms rest2 s2, processFrom s chunks = (ms, some s2) ∧ ms ++ rest2 = rest ∧
        Align s2 rest2 [] ∧ Stable s2 := by
  intro chunks
  induction chunks with
  | nil =>
    intro s rest halign hstable
    exact ⟨[], rest, s, rfl, rfl, halign, hstable⟩
  | cons c cs ih =>
    intro s rest halign hstable
    have halign2 : Align (feedChunk s c) rest cs.flatten := by
      rcases halign with ⟨hcl, hbuf⟩ | ⟨b, r2, rfl, hcl, hbuf⟩
      · refine Or.inl ⟨hcl, ?_⟩
        show (s.buffer ++ c) ++ cs.flatten = _
        rw [List.append_assoc, ← List.flatten_cons]
        exact hbuf
      · refine Or.inr ⟨b, r2, rfl, hcl, ?_⟩
        show (s.buffer ++ c) ++ cs.flatten = _
        rw [List.append_assoc, ← List.flatten_cons]
        exact hbuf
    have hside2 : ∀ n, (feedChunk s c).contentLength = some n → 1 ≤ n := by
      intro n hn
      rcases hstable with ⟨hcl, _⟩ | ⟨m, hcl, hlt⟩
      · rw [show (feedChunk s c).contentLength = s.contentLength from rfl, hcl] at hn
        cases hn
      · rw [show (feedChunk s c).contentLength = s.contentLength from rfl, hcl] at hn
        injection hn with h2
        omega
    obtain ⟨ms, rest2, s2, hdr, hms, halign3, hstable3⟩ :=
      drain_spec ((feedChunk s c).buffer.length + 2) (feedChunk s c) rest cs.flatten
        halign2 hside2 (by omega)
    obtain ⟨ms2, rest3, s3, hpf, hms2, halign4, hstable4⟩ := ih s2 rest2 halign3 hstable3
    refine ⟨ms ++ ms2, rest3, s3, ?_, ?_, halign4, hstable4⟩
    · show processFrom s (c :: cs) = (ms ++ ms2, some s3)
      unfold processFrom
      show (match drain ((feedChunk s c).buffer.length + 2) (feedChunk s c) with
        | (ms3, some s4) => (ms3 ++ (processFrom s4 cs).1, (processFrom s4 cs).2)
        | (ms3, none) => (ms3, none)) = (ms ++ ms2, some s3)
      rw [hdr]
      simp [hpf]
    · rw [List.append_assoc, hms2, hms]

/-- C1: framing round trip of `writeMessage` and `MessageReader`.  For
every sequence of message bodies, the concatenation of their
`writeMessage` frames (`Content-Length` counting the bytes of the body),
split into chunks at arbitrary byte boundaries, makes successive
`readMessage` calls yield exactly those bodies in order, with bytes past
each body kept buffered for the next message and an empty buffer at the
end.  The JSON layer is a platform library: bodies are arbitrary byte
lists, covering in particular every `JSON.stringify` output, whose
`JSON.parse` recovers the original message. -/
theorem c1_framing_roundtrip :
    ∀ (bodies chunks : List (List Nat)),
      chunks.flatten = flatFrames bodies →
      processChunks chunks = (bodies, some ⟨[], none⟩) := by
  intro bodies chunks hstream
  obtain ⟨ms, rest2, s2, hpf, hms, halign, hstable⟩ :=
    processFrom_spec chunks ⟨[], none⟩ bodies
      (Or.inl ⟨rfl, by simpa using hstream⟩) (Or.inl ⟨rfl, rfl⟩)
  have hrest : rest2 = [] ∧ s2 = ⟨[], none⟩ := by
    rcases halign with ⟨hcl, hbuf⟩ | ⟨b, r3, rfl, hcl, hbuf⟩
    · rw [List.append_nil] at hbuf
      cases rest2 with
      | nil =>
        refine ⟨rfl, ?_⟩
        cases s2 with
        | mk buf cl =>
          simp only at hcl hbuf
          simp only [flatFrames, List.map_nil, List.flatten_nil] at hbuf
          rw [hcl, hbuf]
      | cons b r3 =>
        exfalso
        rcases hstable with ⟨_, hfind⟩ | ⟨n, hcl2, _⟩
        · have hshape : s2.buffer = (clBytes ++ natToBytes b.length) ++
              13 :: 10 :: 13 :: 10 :: (b ++ flatFrames r3) := by
            rw [hbuf, flatFrames_cons, frameMessage_shape]
            simp [List.append_assoc]
          rw [hshape, indexOfSeq_at _ _ (no13_header b.length)] at hfind
          cases hfind
        · rw [hcl] at hcl2
          cases hcl2
    · exfalso
      rw [List.append_nil] at hbuf
      rcases hstable with ⟨hcl2, _⟩ | ⟨n, hcl2, hlt⟩
      · rw [hcl] at hcl2
        cases hcl2
      · rw [hcl] at hcl2
        injection hcl2 with hn
        subst hn
        have h2 := congrArg List.length hbuf
        rw [List.length_append] at h2
        omega
  obtain ⟨rfl, rfl⟩ := hrest
  rw [List.append_nil] at hms
  subst hms
  exact hpf

/-- C1 witness: the two framed bodies of `bodiesEx`, split mid-header
into the two chunks of `chunksEx`, are read back exactly. -/
theorem c1_framing_roundtrip_witness :
    chunksEx.flatten = flatFrames bodiesEx ∧
    processChunks chunksEx = (bodiesEx, some ⟨[], none⟩) :=
  ⟨by decide, c1_framing_roundtrip bodiesEx chunksEx (by decide)⟩

/-- C10 witness: a single `**/*.ts` registration with kind 3 watches
`src/a.ts` with kind 3, and the membership characterization holds for
it. -/
theorem c10_isPathWatched_witness :
    isPathWatched [c10reg] c10path = (true, c10reg.kind.getD allWatchKinds) ∧
    ((isPathWatched [c10reg] c10path).1 = true ↔
      ∃ reg ∈ [c10reg], matchesPattern c10path reg.globPattern = true) := by
  constructor
  · exact (c10_isPathWatched.2.2.2) [c10reg] c10path c10reg (by decide)
  · exact (c10_isPathWatched.2.2.1) [c10reg] c10path (by decide)

end LspSpec
